import Mathlib

/-!
# awsScrape: a shallow embedding of `awsscrape.go`

The development follows the source top to bottom:

* Go `int` arithmetic (64-bit two's complement, wrap-around on overflow,
  truncated division, run-time failure on division by zero);
* the data declared in the file (`IPRange`, `CheckIPRangeError`);
* `getIPRanges`, with the three library calls it makes taken as inputs;
* the pieces of `main`: thread-count normalisation, `rangesPerThread`, the
  launch loop, the worker closure handed to `eg.Go`, `eg.Wait`, and the final
  report.

`checkIPRange` is declared in the source but its body is not available; it is a
parameter of the model (a state transformer that may return an error).

The goroutines started by `eg.Go` run concurrently. A run of `main` is therefore
given a schedule, which names step by step the goroutine that runs its next loop
iteration; statements about `main` hold for every schedule.
-/

namespace AwsScrape

/-! ## Go `int` arithmetic -/

/-- Smallest value of a 64-bit Go `int`, `-2 ^ 63`. -/
def intMin : Int := -9223372036854775808

/-- Largest value of a 64-bit Go `int`, `2 ^ 63 - 1`. -/
def intMax : Int := 9223372036854775807

/-- Two's complement wrap-around of a mathematical integer into 64 bits:
`(x + 2 ^ 63) mod 2 ^ 64 - 2 ^ 63`. -/
def wrapInt (x : Int) : Int :=
  (x + 9223372036854775808) % 18446744073709551616 - 9223372036854775808

/-- Go `a + b` on `int`. -/
def goAdd (a b : Int) : Int := wrapInt (a + b)

/-- Go `a - b` on `int`. -/
def goSub (a b : Int) : Int := wrapInt (a - b)

/-- Go `a / b` on `int`: the quotient truncated toward zero; `none` is the
run-time failure "integer divide by zero". -/
def goDiv (a b : Int) : Option Int :=
  if b = 0 then none else some (wrapInt (Int.tdiv a b))

/-- Go `xs[j]`: `none` is the run-time failure "index out of range". -/
def goIndex {α : Type} (xs : List α) (j : Int) : Option α :=
  if 0 ≤ j then xs.get? j.toNat else none

/-! ## Data -/

/-- The anonymous element struct of `IPRange.Prefixes`. -/
structure PrefixEntry where
  IPPrefix : String
deriving DecidableEq, Repr

/-- The document read from the range source (`type IPRange struct`). -/
structure IPRange where
  Prefixes : List PrefixEntry
deriving DecidableEq, Repr

/-- The error a worker returns (`type CheckIPRangeError struct`); the wrapped
`error` value is represented by the text its `Error()` method yields. -/
structure CheckIPRangeError where
  IPRange : String
  Err : String
deriving DecidableEq, Repr

/-- The method `func (e CheckIPRangeError) Error() string`. -/
def CheckIPRangeError.Error (e : CheckIPRangeError) : String :=
  "error checking IP range " ++ e.IPRange ++ ": " ++ e.Err

/-! ## `getIPRanges` -/

/-- The three library calls of `getIPRanges`, each either failing with an error
text or succeeding: `http.Get`, `ioutil.ReadAll` on the response body, and
`json.Unmarshal` into an `IPRange`. -/
structure RangeSource where
  httpGet : Except String String
  readAll : String → Except String String
  unmarshal : String → Except String IPRange

/-- The function `getIPRanges`: the returned pair `(*IPRange, error)`, a nil
pointer and a nil error being `none`. -/
def getIPRanges (src : RangeSource) : Option IPRange × Option String :=
  match src.httpGet with
  | .error err => (none, some ("error fetching IP ranges: " ++ err))
  | .ok body =>
    match src.readAll body with
    | .error err => (none, some ("error reading IP ranges response body: " ++ err))
    | .ok data =>
      match src.unmarshal data with
      | .error err => (none, some ("error unmarshaling IP ranges: " ++ err))
      | .ok ipRanges => (some ipRanges, none)

/-! ## `main`: partitioning -/

/-- Lines 67-70: `threadCount := *threadsFlag`, replaced by 1 when `<= 0`. -/
def threadCount (threadsFlag : Int) : Int :=
  if threadsFlag ≤ 0 then 1 else threadsFlag

/-- Line 72: `(rangeCount + threadCount - 1) / threadCount`. -/
def rangesPerThread (rangeCount threadCount : Int) : Option Int :=
  goDiv (goSub (goAdd rangeCount threadCount) 1) threadCount

/-- The pair `start`, `end` captured by one closure passed to `eg.Go`. -/
structure Shard where
  start : Int
  end_ : Int
deriving DecidableEq, Repr

/-- What the launch loop has done after some number of iterations: the shards
handed to `eg.Go`, in launch order, and whether the loop condition has become
false. -/
structure Launch where
  shards : List Shard
  exited : Bool
deriving DecidableEq, Repr

/-- Lines 74-89, `for i := 0; i < rangeCount; i += rangesPerThread`, run for at
most `fuel` iterations from loop index `i`. -/
def launchLoop (rangeCount rangesPerThread : Int) : Nat → Int → Launch
  | 0, i => ⟨[], decide (¬ i < rangeCount)⟩
  | fuel + 1, i =>
    if i < rangeCount then
      let start := i
      let end0 := goAdd i rangesPerThread
      let end_ := if end0 > rangeCount then rangeCount else end0
      let rest := launchLoop rangeCount rangesPerThread fuel (goAdd i rangesPerThread)
      ⟨⟨start, end_⟩ :: rest.shards, rest.exited⟩
    else ⟨[], true⟩

/-- Lines 67-89 up to the launches: normalise the thread count, compute
`rangesPerThread`, run the launch loop from `i = 0`; `none` is the division
failure. -/
def launchAll (rangeCount threadsFlag : Int) (fuel : Nat) : Option Launch :=
  match rangesPerThread rangeCount (threadCount threadsFlag) with
  | none => none
  | some rpt => some (launchLoop rangeCount rpt fuel 0)

/-- The indices `j` visited by `for j := start; j < end; j++` when no iteration
returns early. -/
def Shard.indices (s : Shard) : List Int :=
  (List.range (s.end_ - s.start).toNat).map (fun (k : Nat) => s.start + (k : Int))

/-- Number of indices of a shard. -/
def Shard.size (s : Shard) : Nat := (s.end_ - s.start).toNat

/-- The quotient of `a` by `b` rounded up, `⌈a / b⌉`, on natural numbers (0 when
`b = 0`). -/
def ceilDiv (a b : Nat) : Nat := (a + b - 1) / b

/-- The shard number `m` (counted from 0) of a list of `N` ranges cut into
pieces of `r`: from `m * r` up to `(m + 1) * r`, or up to `N` if that is less. -/
def shardAt (N r m : Nat) : Shard :=
  ⟨((m * r : Nat) : Int), ((min ((m + 1) * r) N : Nat) : Int)⟩

/-! ## `main`: the worker closure -/

/-- The state `checkIPRange` acts on: everything outside the program (network,
clock, the deadline of `ctx`) and the keys stored in the `sync.Map`
`ipAddresses`, listed in the order `Range` visits them. -/
structure Scan (ω : Type) where
  world : ω
  ipAddresses : List String

/-- The type of `checkIPRange(ctx, ipRange, keyword, ipAddresses)`: given the
state, the range and the keyword it yields the new state and an error, `none`
being nil. -/
abbrev CheckFn (ω : Type) := Scan ω → String → String → Scan ω × Option String

/-- How a call of the closure ends. -/
inductive WorkerResult where
  | returned (err : Option CheckIPRangeError)
  | indexOutOfRange
  | running
deriving DecidableEq, Repr

/-- One run of the closure: its result, the calls of `checkIPRange` it made in
order (index `j` and the error that call returned), and the state it leaves. -/
structure WorkerRun (ω : Type) where
  result : WorkerResult
  calls : List (Int × Option String)
  state : Scan ω

/-- Lines 81-87, `for j := start; j < end; j++`, run for at most `fuel`
iterations from index `j`. -/
def workerLoop {ω : Type} (checkIPRange : CheckFn ω) (ipRanges : IPRange) (keyword : String)
    (end_ : Int) : Nat → Int → Scan ω → WorkerRun ω
  | 0, j, s => if j < end_ then ⟨.running, [], s⟩ else ⟨.returned none, [], s⟩
  | fuel + 1, j, s =>
    if j < end_ then
      match goIndex ipRanges.Prefixes j with
      | none => ⟨.indexOutOfRange, [], s⟩
      | some p =>
        match checkIPRange s p.IPPrefix keyword with
        | (s1, some err) => ⟨.returned (some ⟨p.IPPrefix, err⟩), [(j, some err)], s1⟩
        | (s1, none) =>
          let rest := workerLoop checkIPRange ipRanges keyword end_ fuel (goAdd j 1) s1
          ⟨rest.result, (j, none) :: rest.calls, rest.state⟩
    else ⟨.returned none, [], s⟩

/-- The closure passed to `eg.Go` for one shard (lines 80-88). -/
def worker {ω : Type} (checkIPRange : CheckFn ω) (ipRanges : IPRange) (keyword : String)
    (sh : Shard) (fuel : Nat) (s : Scan ω) : WorkerRun ω :=
  workerLoop checkIPRange ipRanges keyword sh.end_ fuel sh.start s

/-! ## `main`: joining and reporting -/

/-- The value of `eg.Wait()` for an `errgroup.Group`: the first non-nil error
returned by a function started with `eg.Go`, the returned values being listed in
the order the functions returned; nil when there is none. -/
def egWait : List (Option CheckIPRangeError) → Option CheckIPRangeError
  | [] => none
  | some e :: _ => some e
  | none :: rest => egWait rest

/-- What the process writes through `logger` or `fmt.Printf`. -/
inductive Event where
  | usage (program : String)
  | fatal (message : String)
  | found (key : String)
deriving DecidableEq, Repr

/-- The formatted message of an event; the logger puts the date and time in
front of it and a newline behind it when it does not end in one. -/
def Event.text : Event → String
  | .usage program => "Usage: " ++ program ++ " -keyword=<your_keyword>\n"
  | .fatal message => message
  | .found key => "Keyword found in SSL certificate for IP: " ++ key ++ "\n"

/-- How the process ends: `exit code` (`os.Exit` or return from `main`), a
run-time failure, or still running when the fuel is spent. -/
inductive Ending where
  | exit (code : Nat)
  | failure
  | running
deriving DecidableEq, Repr

/-- Lines 91-98: `eg.Wait()` over the values the workers returned (in the order
they returned), then either `logger.Fatalf` or one `logger.Printf` per key that
`ipAddresses.Range` visits. -/
def report (returned : List (Option CheckIPRangeError)) (keys : List String) :
    List Event × Ending :=
  match egWait returned with
  | some err => ([.fatal err.Error], .exit 1)
  | none => (keys.map .found, .exit 0)

/-! ## `main` -/

/-- The inputs of one run of the program. -/
structure Env (ω : Type) where
  program : String
  keywordFlag : String
  threadsFlag : Int
  source : RangeSource
  checkIPRange : CheckFn ω
  world : ω

/-- An observation of one run of `main`. -/
structure Run where
  events : List Event
  ending : Ending
  launched : List Shard
  checked : List String
deriving DecidableEq, Repr

/-- A goroutine started by `eg.Go`: the part of its shard it has still to
check and, once it has ended, how it ended (`none` while it is running). -/
structure Task where
  shard : Shard
  result : Option WorkerResult
deriving DecidableEq, Repr

/-- The goroutines of one run at some point in time: the tasks in launch order,
the values the closures have returned so far in the order they returned, the
calls of `checkIPRange` made so far in the order they were made (index and
returned error), and the state. -/
structure Pool (ω : Type) where
  tasks : List Task
  returned : List (Option CheckIPRangeError)
  calls : List (Int × Option String)
  state : Scan ω

/-- The pool right after the launches: every task running, nothing called. -/
def Pool.start {ω : Type} (shards : List Shard) (s : Scan ω) : Pool ω :=
  ⟨shards.map (fun sh => ⟨sh, none⟩), [], [], s⟩

/-- The goroutine number `w` (in launch order) runs one iteration of its loop:
the loop test, the call of `checkIPRange` and the test that follows it. The call
acts on the shared state in this one step, and a value the closure returns
reaches `eg.Wait` in this step. A number that names no goroutine, or one that has
ended, changes nothing. -/
def Pool.step {ω : Type} (checkIPRange : CheckFn ω) (ipRanges : IPRange) (keyword : String)
    (pool : Pool ω) (w : Nat) : Pool ω :=
  match pool.tasks.get? w with
  | none => pool
  | some ⟨_, some _⟩ => pool
  | some ⟨sh, none⟩ =>
    let run := worker checkIPRange ipRanges keyword sh 1 pool.state
    match run.result with
    | .running =>
      ⟨pool.tasks.set w ⟨⟨goAdd sh.start 1, sh.end_⟩, none⟩, pool.returned,
        pool.calls ++ run.calls, run.state⟩
    | .returned err =>
      ⟨pool.tasks.set w ⟨sh, some (.returned err)⟩, pool.returned ++ [err],
        pool.calls ++ run.calls, run.state⟩
    | .indexOutOfRange =>
      ⟨pool.tasks.set w ⟨sh, some .indexOutOfRange⟩, pool.returned,
        pool.calls ++ run.calls, run.state⟩

/-- The goroutines run interleaved: `schedule` names, step by step, the
goroutine that runs its next iteration. -/
def runSchedule {ω : Type} (checkIPRange : CheckFn ω) (ipRanges : IPRange) (keyword : String) :
    List Nat → Pool ω → Pool ω
  | [], pool => pool
  | w :: rest, pool =>
    runSchedule checkIPRange ipRanges keyword rest
      (Pool.step checkIPRange ipRanges keyword pool w)

/-- The pool of a run when the schedule is spent: the goroutines of `shards`
started on an empty `sync.Map` and interleaved as `schedule` says. -/
def finalPool {ω : Type} (env : Env ω) (ipRanges : IPRange) (shards : List Shard)
    (schedule : List Nat) : Pool ω :=
  runSchedule env.checkIPRange ipRanges env.keywordFlag schedule
    (Pool.start shards ⟨env.world, []⟩)

/-- The program. The launch loop is run for at most `fuel` iterations; the
goroutines it has started run interleaved in the order `schedule` gives, one
loop iteration at a time, and `eg.Wait` receives the values they return in the
order they return them. A goroutine that has not ended when the schedule is
spent is still running. -/
def main {ω : Type} (env : Env ω) (fuel : Nat) (schedule : List Nat) : Run :=
  if env.keywordFlag = "" then
    ⟨[.usage env.program], .exit 1, [], []⟩
  else
    match getIPRanges env.source with
    | (_, some err) => ⟨[.fatal ("Error fetching IP ranges: " ++ err)], .exit 1, [], []⟩
    | (none, none) => ⟨[], .failure, [], []⟩
    | (some ipRanges, none) =>
      match launchAll (ipRanges.Prefixes.length : Int) env.threadsFlag fuel with
      | none => ⟨[], .failure, [], []⟩
      | some launch =>
        let pool := finalPool env ipRanges launch.shards schedule
        let checked :=
          pool.calls.filterMap (fun c => (goIndex ipRanges.Prefixes c.1).map (·.IPPrefix))
        if pool.tasks.any (fun t => t.result == some .indexOutOfRange) then
          ⟨[], .failure, launch.shards, checked⟩
        else if !launch.exited || pool.tasks.any (fun t => t.result.isNone) then
          ⟨[], .running, launch.shards, checked⟩
        else
          let (events, ending) := report pool.returned pool.state.ipAddresses
          ⟨events, ending, launch.shards, checked⟩

/-- The state reached from `s` once `checkIPRange` has been called, in turn, for
the range at each index of `js`. -/
def stateAfter {ω : Type} (checkIPRange : CheckFn ω) (ipRanges : IPRange) (keyword : String) :
    List Int → Scan ω → Scan ω
  | [], s => s
  | j :: js, s =>
    match goIndex ipRanges.Prefixes j with
    | none => s
    | some p => stateAfter checkIPRange ipRanges keyword js (checkIPRange s p.IPPrefix keyword).1

/-- The log of calls that arises when `checkIPRange` is called from `s`, in
turn, for the range at each index of `js`: each index with the error that call
returns. -/
def responses {ω : Type} (checkIPRange : CheckFn ω) (ipRanges : IPRange) (keyword : String) :
    List Int → Scan ω → List (Int × Option String)
  | [], _ => []
  | j :: js, s =>
    match goIndex ipRanges.Prefixes j with
    | none => []
    | some p =>
      (j, (checkIPRange s p.IPPrefix keyword).2) ::
        responses checkIPRange ipRanges keyword js (checkIPRange s p.IPPrefix keyword).1

/-- The `CheckIPRangeError` values that the failing calls of a log give rise to,
in the order of the log. -/
def errorsOf (ipRanges : IPRange) : List (Int × Option String) → List CheckIPRangeError
  | [] => []
  | (j, some err) :: rest =>
    match goIndex ipRanges.Prefixes j with
    | some p => ⟨p.IPPrefix, err⟩ :: errorsOf ipRanges rest
    | none => errorsOf ipRanges rest
  | (_, none) :: rest => errorsOf ipRanges rest

/-- What holds of the pool at every point of a run that started in state `s0`:
every logged call was made on a valid index; the log is what `checkIPRange`
answers when it is called in the order of the log from `s0`; the state is the
one these calls lead to; and the errors returned so far are those of the failing
calls of the log, in the same order. -/
structure Pool.Sound {ω : Type} (checkIPRange : CheckFn ω) (ipRanges : IPRange)
    (keyword : String) (s0 : Scan ω) (pool : Pool ω) : Prop where
  valid : ∀ c ∈ pool.calls, ∃ p, goIndex ipRanges.Prefixes c.1 = some p
  log : pool.calls = responses checkIPRange ipRanges keyword (pool.calls.map Prod.fst) s0
  state : pool.state = stateAfter checkIPRange ipRanges keyword (pool.calls.map Prod.fst) s0
  errors : pool.returned.reduceOption = errorsOf ipRanges pool.calls

/-! ## Sample inputs -/

/-- A range source whose three calls succeed and deliver the given ranges. -/
def sourceOf (ranges : List String) : RangeSource :=
  ⟨.ok "body", fun _ => .ok "data", fun _ => .ok ⟨ranges.map PrefixEntry.mk⟩⟩

/-- A `checkIPRange` that fails with "refused" on the range "bad" and stores
every other range it is given. -/
def sampleCheck : CheckFn Unit := fun s ipRange _ =>
  if ipRange = "bad" then (s, some "refused") else (⟨s.world, s.ipAddresses ++ [ipRange]⟩, none)

/-- A run of the program with keyword "example" over the given ranges. -/
def sampleEnv (ranges : List String) (threads : Int) : Env Unit :=
  ⟨"awsScrape", "example", threads, sourceOf ranges, sampleCheck, ()⟩

/-- A `checkIPRange` that fails with "refused" on every range. -/
def refusingCheck : CheckFn Unit := fun s _ _ => (s, some "refused")

/-- A run of the program in which `http.Get` fails with "timeout". -/
def failingEnv : Env Unit :=
  ⟨"awsScrape", "example", 2, ⟨.error "timeout", fun _ => .ok "data", fun _ => .ok ⟨[]⟩⟩,
    sampleCheck, ()⟩

/-- Three ranges, the second of which `sampleCheck` fails on. -/
def sampleRanges : IPRange := ⟨[⟨"a"⟩, ⟨"bad"⟩, ⟨"c"⟩]⟩

end AwsScrape

namespace AwsScrape

/-! ## Arithmetic without overflow -/

theorem wrapInt_of_inRange (x : Int) (hlo : intMin ≤ x) (hhi : x ≤ intMax) : wrapInt x = x := by
  unfold intMin at hlo
  unfold intMax at hhi
  unfold wrapInt
  omega

theorem goAdd_natCast (a b : Nat) (h : a + b < 2 ^ 63) :
    goAdd (a : Int) (b : Int) = ((a + b : Nat) : Int) := by
  unfold goAdd
  rw [wrapInt_of_inRange]
  · push_cast; rfl
  · unfold intMin; omega
  · unfold intMax; omega

theorem rangesPerThread_natCast (N W : Nat) (hW : 1 ≤ W) (hov : N + W ≤ 2 ^ 63) :
    rangesPerThread (N : Int) (W : Int) = some ((ceilDiv N W : Nat) : Int) := by
  unfold rangesPerThread goDiv
  have h1 : goSub (goAdd (N : Int) (W : Int)) 1 = ((N + W - 1 : Nat) : Int) := by
    unfold goSub goAdd wrapInt
    omega
  have hW0 : ¬ ((W : Int) = 0) := by omega
  have h2 : Int.tdiv ((N + W - 1 : Nat) : Int) (W : Int) = (((N + W - 1) / W : Nat) : Int) :=
    (Int.ofNat_tdiv _ _).symm
  have h3 : (N + W - 1) / W ≤ N + W - 1 := Nat.div_le_self _ _
  have h4 : (0 : Int) ≤ (((N + W - 1) / W : Nat) : Int) := Int.ofNat_nonneg _
  rw [h1, if_neg hW0, h2, wrapInt_of_inRange]
  · rfl
  · unfold intMin; omega
  · unfold intMax; omega

/-! ## The launch loop without overflow -/

theorem lt_ceilDiv_iff (N r k : Nat) (hr : 0 < r) : k < ceilDiv N r ↔ k * r < N := by
  unfold ceilDiv
  rw [Nat.lt_iff_add_one_le, Nat.le_div_iff_mul_le hr, Nat.add_mul]
  omega

theorem launchLoop_closed (N r : Nat) (hr : 0 < r)
    (hb : ∀ k, k * r < N → (k + 1) * r < 2 ^ 63) (fuel : Nat) :
    ∀ k : Nat, launchLoop (N : Int) (r : Int) fuel ((k * r : Nat) : Int) =
      ⟨(List.range' k (min fuel (ceilDiv N r - k))).map (shardAt N r),
        decide (ceilDiv N r - k ≤ fuel)⟩ := by
  induction fuel with
  | zero =>
    intro k
    have hk := lt_ceilDiv_iff N r k hr
    simp only [launchLoop, Nat.zero_min, List.range'_zero, List.map_nil, Launch.mk.injEq,
      true_and, decide_eq_decide]
    omega
  | succ fuel ih =>
    intro k
    have hk := lt_ceilDiv_iff N r k hr
    by_cases hlt : k * r < N
    · have hK : k < ceilDiv N r := hk.mpr hlt
      have hsum : k * r + r = (k + 1) * r := by ring
      have hadd : goAdd ((k * r : Nat) : Int) (r : Int) = (((k + 1) * r : Nat) : Int) := by
        rw [goAdd_natCast _ _ (by rw [hsum]; exact hb k hlt), hsum]
      have hmin : min (fuel + 1) (ceilDiv N r - k) = min fuel (ceilDiv N r - (k + 1)) + 1 := by
        omega
      have hcond : ((k * r : Nat) : Int) < (N : Int) := by exact_mod_cast hlt
      simp only [launchLoop, hcond, if_true, hadd, ih (k + 1), hmin, List.range'_succ,
        List.map_cons, Launch.mk.injEq, List.cons.injEq, decide_eq_decide]
      refine ⟨⟨?_, trivial⟩, by omega⟩
      unfold shardAt
      simp only [Shard.mk.injEq, true_and]
      by_cases hgt : (k + 1) * r > N
      · have : (((k + 1) * r : Nat) : Int) > (N : Int) := by exact_mod_cast hgt
        rw [if_pos this, Nat.min_eq_right (by omega)]
      · have : ¬ (((k + 1) * r : Nat) : Int) > (N : Int) := by exact_mod_cast hgt
        rw [if_neg this, Nat.min_eq_left (by omega)]
    · have hK : ceilDiv N r ≤ k := by
        by_contra hc
        exact hlt (hk.mp (by omega))
      have hcond : ¬ ((k * r : Nat) : Int) < (N : Int) := by exact_mod_cast hlt
      have hz : min (fuel + 1) (ceilDiv N r - k) = 0 := by omega
      simp only [launchLoop, hcond, if_false, hz, List.range'_zero, List.map_nil,
        Launch.mk.injEq, true_and]
      symm
      rw [decide_eq_true_iff]
      omega

theorem le_ceilDiv_mul (N W : Nat) (hW : 1 ≤ W) : N ≤ ceilDiv N W * W := by
  unfold ceilDiv
  have h1 := Nat.div_add_mod (N + W - 1) W
  have h2 := Nat.mod_lt (N + W - 1) (show W > 0 by omega)
  have h3 : W * ((N + W - 1) / W) = (N + W - 1) / W * W := Nat.mul_comm _ _
  omega

theorem ceilDiv_mul_le (N W : Nat) : ceilDiv N W * W ≤ N + W - 1 := by
  unfold ceilDiv
  exact Nat.div_mul_le_self _ _

theorem ceilDiv_pos (N W : Nat) (hN : 1 ≤ N) (hW : 1 ≤ W) : 0 < ceilDiv N W := by
  unfold ceilDiv
  exact Nat.div_pos (by omega) (by omega)

theorem ceilDiv_ceilDiv_le (N W : Nat) (hN : 1 ≤ N) (hW : 1 ≤ W) :
    ceilDiv N (ceilDiv N W) ≤ W := by
  have hr := ceilDiv_pos N W hN hW
  by_contra hc
  have h1 : W < ceilDiv N (ceilDiv N W) := by omega
  have h2 := (lt_ceilDiv_iff N (ceilDiv N W) W hr).mp h1
  have h3 := le_ceilDiv_mul N W hW
  have h4 : ceilDiv N W * W = W * ceilDiv N W := Nat.mul_comm _ _
  omega

theorem ceilDiv_ceilDiv_pos (N W : Nat) (hN : 1 ≤ N) (hW : 1 ≤ W) :
    0 < ceilDiv N (ceilDiv N W) := by
  have hr := ceilDiv_pos N W hN hW
  exact (lt_ceilDiv_iff N (ceilDiv N W) 0 hr).mpr (by omega)

theorem ceilDiv_le_self (N r : Nat) (hr : 0 < r) : ceilDiv N r ≤ N := by
  by_contra hc
  have h1 : N < ceilDiv N r := by omega
  have h2 := (lt_ceilDiv_iff N r N hr).mp h1
  have h3 : N * 1 ≤ N * r := Nat.mul_le_mul_left N hr
  omega

theorem steps_inRange (N W : Nat) (hN : 1 ≤ N) (hW : 1 ≤ W) (hov : N + W ≤ 2 ^ 63) :
    ∀ k, k * ceilDiv N W < N → (k + 1) * ceilDiv N W < 2 ^ 63 := by
  intro k hk
  have h1 := le_ceilDiv_mul N W hW
  have h2 := ceilDiv_mul_le N W
  have h3 : ceilDiv N W * W = W * ceilDiv N W := Nat.mul_comm _ _
  have h4 : k < W := by
    by_contra hc
    have : W * ceilDiv N W ≤ k * ceilDiv N W := Nat.mul_le_mul_right _ (by omega)
    omega
  have h5 : (k + 1) * ceilDiv N W ≤ W * ceilDiv N W := Nat.mul_le_mul_right _ (by omega)
  omega

theorem threadCount_of_pos (W : Int) (hW : 1 ≤ W) : threadCount W = W := by
  unfold threadCount
  rw [if_neg (by omega)]

theorem launchAll_closed (N W fuel : Nat) (hW : 1 ≤ W) (hov : N + W ≤ 2 ^ 63)
    (hfuel : ceilDiv N (ceilDiv N W) ≤ fuel) :
    launchAll (N : Int) (W : Int) fuel =
      some ⟨(List.range (ceilDiv N (ceilDiv N W))).map (shardAt N (ceilDiv N W)), true⟩ := by
  unfold launchAll
  rw [threadCount_of_pos _ (by omega), rangesPerThread_natCast N W hW hov]
  rcases Nat.eq_zero_or_pos N with h0 | hpos
  · subst h0
    have hc : ceilDiv 0 (ceilDiv 0 W) = 0 := by
      unfold ceilDiv
      rw [show (0 + W - 1) / W = 0 from Nat.div_eq_of_lt (by omega)]
    rw [hc]
    cases fuel <;> simp [launchLoop]
  · have hr := ceilDiv_pos N W hpos hW
    have hcl := launchLoop_closed N (ceilDiv N W) hr (steps_inRange N W hpos hW hov) fuel 0
    simp only [Nat.zero_mul, Nat.sub_zero, Nat.cast_zero] at hcl
    simp only [hcl, Nat.min_eq_right hfuel, List.range_eq_range', hfuel, decide_True]

/-! ## Shards of the launch loop -/

theorem shardAt_indices (N r m : Nat) :
    (shardAt N r m).indices =
      (List.range' (min (m * r) N) (min ((m + 1) * r) N - min (m * r) N)).map Nat.cast := by
  unfold Shard.indices shardAt
  have hmul : (m + 1) * r = m * r + r := by ring
  simp only [Int.toNat_sub]
  by_cases h : m * r ≤ N
  · rw [Nat.min_eq_left h, List.range'_eq_map_range, List.map_map]
    apply List.map_congr_left
    intro k _
    simp
  · have h1 : min ((m + 1) * r) N - m * r = 0 := by omega
    have h2 : min ((m + 1) * r) N - min (m * r) N = 0 := by omega
    rw [h1, h2]
    rfl

theorem flatMap_shardAt (N r : Nat) (K : Nat) :
    ((List.range K).map (shardAt N r)).flatMap Shard.indices =
      (List.range (min (K * r) N)).map Nat.cast := by
  induction K with
  | zero => simp
  | succ K ih =>
    have hmul : (K + 1) * r = K * r + r := by ring
    rw [List.range_succ, List.map_append, List.flatMap_append, ih]
    simp only [List.map_cons, List.map_nil, List.flatMap_cons, List.flatMap_nil,
      List.append_nil]
    rw [shardAt_indices, ← List.map_append, List.range_eq_range', List.range_eq_range']
    have := List.range'_append 0 (min (K * r) N) (min ((K + 1) * r) N - min (K * r) N) 1
    simp only [Nat.zero_add, Nat.one_mul] at this
    rw [this]
    congr 2
    omega

theorem shardAt_bounds (N r m : Nat) (hr : 0 < r) (hm : m < ceilDiv N r) :
    (0 : Int) ≤ (shardAt N r m).start ∧ (shardAt N r m).start < (shardAt N r m).end_ ∧
      (shardAt N r m).end_ ≤ (N : Int) := by
  have h := (lt_ceilDiv_iff N r m hr).mp hm
  have hmul : (m + 1) * r = m * r + r := by ring
  unfold shardAt
  simp only
  refine ⟨by omega, ?_, ?_⟩
  · have : m * r < min ((m + 1) * r) N := by omega
    exact_mod_cast this
  · have : min ((m + 1) * r) N ≤ N := by omega
    exact_mod_cast this

theorem shardAt_size (N r m : Nat) :
    (shardAt N r m).size = min ((m + 1) * r) N - m * r := by
  unfold Shard.size shardAt
  simp only [Int.toNat_sub]

theorem shardAt_size_full (N r m : Nat) (hr : 0 < r) (hm : m + 1 < ceilDiv N r) :
    (shardAt N r m).size = r := by
  have h := (lt_ceilDiv_iff N r (m + 1) hr).mp hm
  have hmul : (m + 1) * r = m * r + r := by ring
  rw [shardAt_size]
  omega

theorem shardAt_size_le (N r m : Nat) : (shardAt N r m).size ≤ r := by
  have hmul : (m + 1) * r = m * r + r := by ring
  rw [shardAt_size]
  omega

/-! ## The partition when `rangeCount + threadCount - 1` does not overflow -/

theorem shardCount_le_self (N W : Nat) (hW : 1 ≤ W) : ceilDiv N (ceilDiv N W) ≤ N := by
  rcases Nat.eq_zero_or_pos N with h0 | hpos
  · subst h0
    have : ceilDiv 0 (ceilDiv 0 W) = 0 := by
      unfold ceilDiv
      rw [show (0 + W - 1) / W = 0 from Nat.div_eq_of_lt (by omega)]
    omega
  · exact ceilDiv_le_self N _ (ceilDiv_pos N W hpos hW)

theorem shardCount_le_threads (N W : Nat) (hW : 1 ≤ W) : ceilDiv N (ceilDiv N W) ≤ W := by
  rcases Nat.eq_zero_or_pos N with h0 | hpos
  · have := shardCount_le_self N W hW
    omega
  · exact ceilDiv_ceilDiv_le N W hpos hW

/-- Without overflow the launch loop ends within `N` iterations and the shards
it hands out, read in launch order, are the indices `0, 1, ..., N - 1`. -/
theorem launch_complete_inRange (N W fuel : Nat) (hW : 1 ≤ W) (hov : N + W ≤ 2 ^ 63)
    (hfuel : N ≤ fuel) :
    ∃ l, launchAll (N : Int) (W : Int) fuel = some l ∧ l.exited = true ∧
      l.shards.flatMap Shard.indices = (List.range N).map Nat.cast := by
  have hK := Nat.le_trans (shardCount_le_self N W hW) hfuel
  refine ⟨_, launchAll_closed N W fuel hW hov hK, rfl, ?_⟩
  simp only
  rw [flatMap_shardAt]
  congr 2
  rcases Nat.eq_zero_or_pos N with h0 | hpos
  · omega
  · have hr := ceilDiv_pos N W hpos hW
    have := le_ceilDiv_mul N (ceilDiv N W) hr
    omega

/-- Without overflow every shard but the last launched has exactly `⌈N / W⌉`
indices, and the last has at least one and at most `⌈N / W⌉`. -/
theorem launch_balanced_inRange (N W fuel : Nat) (hW : 1 ≤ W) (hov : N + W ≤ 2 ^ 63)
    (hfuel : N ≤ fuel) :
    ∃ l, launchAll (N : Int) (W : Int) fuel = some l ∧ l.exited = true ∧
      ∀ (i : Nat) (hi : i < l.shards.length),
        (i + 1 < l.shards.length → (l.shards.get ⟨i, hi⟩).size = ceilDiv N W) ∧
        1 ≤ (l.shards.get ⟨i, hi⟩).size ∧ (l.shards.get ⟨i, hi⟩).size ≤ ceilDiv N W := by
  have hK := Nat.le_trans (shardCount_le_self N W hW) hfuel
  refine ⟨_, launchAll_closed N W fuel hW hov hK, rfl, ?_⟩
  intro i hi
  simp only [List.length_map, List.length_range] at hi
  have hN : 1 ≤ N := by
    have := shardCount_le_self N W hW
    omega
  have hr := ceilDiv_pos N W hN hW
  simp only [List.get_eq_getElem, List.getElem_map, List.getElem_range, List.length_map,
    List.length_range]
  refine ⟨fun h => shardAt_size_full N _ i hr h, ?_, shardAt_size_le N _ i⟩
  have hb := shardAt_bounds N _ i hr hi
  unfold Shard.size
  omega

/-- Without overflow every launched shard is a non-empty range of valid indices:
`0 ≤ start < end ≤ N`. -/
theorem launch_bounds_inRange (N W fuel : Nat) (hW : 1 ≤ W) (hov : N + W ≤ 2 ^ 63)
    (hfuel : N ≤ fuel) :
    ∃ l, launchAll (N : Int) (W : Int) fuel = some l ∧ l.exited = true ∧
      ∀ sh ∈ l.shards, 0 ≤ sh.start ∧ sh.start < sh.end_ ∧ sh.end_ ≤ (N : Int) := by
  have hK := Nat.le_trans (shardCount_le_self N W hW) hfuel
  refine ⟨_, launchAll_closed N W fuel hW hov hK, rfl, ?_⟩
  intro sh hsh
  simp only [List.mem_map, List.mem_range] at hsh
  obtain ⟨m, hm, rfl⟩ := hsh
  have hN : 1 ≤ N := by
    have := shardCount_le_self N W hW
    omega
  exact shardAt_bounds N _ m (ceilDiv_pos N W hN hW) hm

/-- C2 (as amended): for a list of `N` ranges and a worker count `W ≥ 1` such
that `N + W - 1` fits a Go `int`, the launch loop ends within `N` iterations and
has called `eg.Go` exactly `⌈N / ⌈N / W⌉⌉` times, once for each shard: not at
all when `N = 0`, at least once when `N ≥ 1`, and never more than `W` times. -/
theorem launch_count_inRange (N W fuel : Nat) (hW : 1 ≤ W) (hov : N + W ≤ 2 ^ 63)
    (hfuel : N ≤ fuel) :
    ∃ l, launchAll (N : Int) (W : Int) fuel = some l ∧ l.exited = true ∧
      l.shards.length = ceilDiv N (ceilDiv N W) ∧ l.shards.length ≤ W ∧
      (N = 0 → l.shards = []) ∧ (1 ≤ N → 1 ≤ l.shards.length) := by
  have hK := Nat.le_trans (shardCount_le_self N W hW) hfuel
  refine ⟨_, launchAll_closed N W fuel hW hov hK, rfl, ?_, ?_, ?_, ?_⟩
  · simp
  · simpa using shardCount_le_threads N W hW
  · intro h0
    have := shardCount_le_self N W hW
    have hz : ceilDiv N (ceilDiv N W) = 0 := by omega
    simp [hz]
  · intro hN
    simpa using ceilDiv_ceilDiv_pos N W hN hW

/-- Witness of `launch_count_inRange`: ten ranges and three workers. -/
theorem launch_count_inRange_witness :
    ∃ l, launchAll ((10 : Nat) : Int) ((3 : Nat) : Int) 10 = some l ∧ l.exited = true ∧
      l.shards.length = ceilDiv 10 (ceilDiv 10 3) ∧ l.shards.length ≤ 3 ∧
      ((10 : Nat) = 0 → l.shards = []) ∧ (1 ≤ 10 → 1 ≤ l.shards.length) :=
  launch_count_inRange 10 3 10 (by decide) (by decide) (by decide)

/-- C2 (as stated) fails: four ranges and three workers give two shards, not
three. -/
theorem launch_count_counterexample :
    launchAll 4 3 4 = some ⟨[⟨0, 2⟩, ⟨2, 4⟩], true⟩ ∧
      ¬ ∃ l, launchAll 4 3 4 = some l ∧ l.shards.length = 3 := by
  have h : launchAll 4 3 4 = some ⟨[⟨0, 2⟩, ⟨2, 4⟩], true⟩ := by decide
  refine ⟨h, ?_⟩
  rintro ⟨l, hl, hlen⟩
  rw [h] at hl
  cases hl
  simp at hlen

/-! ## The partition when `rangeCount + threadCount - 1` overflows -/

/-- While the loop index stays between `-2 ^ 63 + fuel` and 0, a launch loop over
two ranges with step `-1` keeps running and hands out empty shards only. -/
theorem launchLoop_negative_step (fuel : Nat) :
    ∀ i : Int, i ≤ 0 → intMin + (fuel : Int) ≤ i →
      (launchLoop 2 (-1) fuel i).exited = false ∧
        (launchLoop 2 (-1) fuel i).shards.length = fuel ∧
        ∀ sh ∈ (launchLoop 2 (-1) fuel i).shards, sh.end_ < sh.start := by
  induction fuel with
  | zero =>
    intro i hi _
    have : i < 2 := by omega
    simp [launchLoop, this]
  | succ fuel ih =>
    intro i hi hlo
    unfold intMin at hlo
    have hlt : i < 2 := by omega
    have hadd : goAdd i (-1) = i - 1 := by
      unfold goAdd wrapInt
      omega
    have hrec := ih (i - 1) (by omega) (by unfold intMin; push_cast at hlo; omega)
    have hgt : ¬ i - 1 > 2 := by omega
    simp only [launchLoop, hlt, if_true, hadd, hgt, if_false, List.length_cons,
      List.mem_cons, forall_eq_or_imp]
    exact ⟨hrec.1, by rw [hrec.2.1], by omega, hrec.2.2⟩

/-- Whenever `rangeCount + threadCount - 1` exceeds the largest Go `int`, the
value computed for `rangesPerThread` is zero or negative. -/
theorem rangesPerThread_nonpos_of_overflow (N W : Int) (hN : 1 ≤ N) (hNmax : N ≤ intMax)
    (hW : 1 ≤ W) (hWmax : W ≤ intMax) (hov : intMax < N + W - 1) :
    ∃ r, rangesPerThread N W = some r ∧ r ≤ 0 := by
  unfold intMax at hNmax hWmax hov
  have h1 : goSub (goAdd N W) 1 = -(18446744073709551616 - (N + W - 1)) := by
    unfold goSub goAdd wrapInt
    omega
  have hpos : (0 : Int) ≤ 18446744073709551616 - (N + W - 1) := by omega
  have h2 : Int.tdiv (-(18446744073709551616 - (N + W - 1))) W
      = -((18446744073709551616 - (N + W - 1)) / W) := by
    rw [Int.neg_tdiv, Int.tdiv_eq_ediv hpos (by omega)]
  have h3 : (18446744073709551616 - (N + W - 1)) / W ≤ 18446744073709551616 - (N + W - 1) :=
    Int.ediv_le_self W hpos
  have h4 : 0 ≤ (18446744073709551616 - (N + W - 1)) / W := Int.ediv_nonneg hpos (by omega)
  refine ⟨-((18446744073709551616 - (N + W - 1)) / W), ?_, by omega⟩
  unfold rangesPerThread goDiv
  rw [h1, if_neg (by omega), h2, wrapInt_of_inRange _ (by unfold intMin; omega)
    (by unfold intMax; omega)]

/-- Whenever `rangeCount + threadCount - 1` exceeds the largest Go `int`, the
first shard launched is empty: it starts at 0 and ends at or below 0. -/
theorem first_shard_empty_of_overflow (N W : Int) (fuel : Nat) (hN : 1 ≤ N)
    (hNmax : N ≤ intMax) (hW : 1 ≤ W) (hWmax : W ≤ intMax) (hov : intMax < N + W - 1) :
    ∃ l sh, launchAll N W (fuel + 1) = some l ∧ l.shards.head? = some sh ∧
      sh.start = 0 ∧ sh.end_ ≤ 0 := by
  obtain ⟨r, hr, hr0⟩ := rangesPerThread_nonpos_of_overflow N W hN hNmax hW hWmax hov
  have hrlo : intMin ≤ r := by
    unfold rangesPerThread goDiv at hr
    split at hr
    · cases hr
    · cases hr
      unfold wrapInt intMin
      omega
  have hadd : goAdd 0 r = r := by
    unfold goAdd
    rw [Int.zero_add]
    exact wrapInt_of_inRange r hrlo (by unfold intMax; omega)
  have h0 : (0 : Int) < N := by omega
  have hgt : ¬ r > N := by omega
  have hl : launchAll N W (fuel + 1) = some (launchLoop N r (fuel + 1) 0) := by
    unfold launchAll
    rw [threadCount_of_pos W hW, hr]
  refine ⟨launchLoop N r (fuel + 1) 0, ⟨0, r⟩, hl, ?_, rfl, hr0⟩
  simp [launchLoop, h0, hadd, hgt]

/-- C10 (fails on the code): for two ranges and a thread count of
`9223372036854775807` the sum `rangeCount + threadCount - 1` wraps around to
`-2 ^ 63`, so `rangesPerThread` is `-1` where `⌈2 / W⌉` is 1; the loop index goes
from 0 to `-1`, and the launch loop has not ended after 2 iterations. -/
theorem rangesPerThread_overflow :
    goSub (goAdd 2 (threadCount 9223372036854775807)) 1 = intMin ∧
      rangesPerThread 2 (threadCount 9223372036854775807) = some (-1) ∧
      ceilDiv 2 9223372036854775807 = 1 ∧
      goAdd 0 (-1) = -1 ∧
      (launchLoop 2 (-1) 2 0).exited = false := by
  decide

/-- C1 (fails on the code): for two ranges and a thread count of
`9223372036854775807` the first three shards launched are `[0, -1)`, `[-1, -2)`
and `[-2, -3)`, the loop is still running, and the indices handed out are none
at all instead of `0, 1`. -/
theorem launch_overflow_incomplete :
    launchAll 2 9223372036854775807 3 =
        some ⟨[⟨0, -1⟩, ⟨-1, -2⟩, ⟨-2, -3⟩], false⟩ ∧
      (launchAll 2 9223372036854775807 3).map (fun l => l.shards.flatMap Shard.indices)
        = some [] ∧
      (List.range 2).map Nat.cast ≠ ([] : List Int) := by
  decide

/-- C3 (fails on the code): for two ranges and a thread count of
`9223372036854775807` the first two shards launched both have size 0, while
`⌈N / W⌉` is 1, and the loop is still running. -/
theorem launch_overflow_unbalanced :
    (launchAll 2 9223372036854775807 2).map (fun l => (l.shards.map Shard.size, l.exited))
        = some ([0, 0], false) ∧
      ceilDiv 2 9223372036854775807 = 1 := by
  decide

/-- C8 (fails on the code): for two ranges and a thread count of
`9223372036854775807`, `⌈N / ⌈N / W⌉⌉` is 2, but after three iterations three
workers have been launched and the loop is still running; every one of them
received an empty shard, with `end < start`. -/
theorem launch_overflow_unbounded :
    ceilDiv 2 (ceilDiv 2 9223372036854775807) = 2 ∧
      (launchAll 2 9223372036854775807 3).map (fun l => (l.shards.length, l.exited))
        = some (3, false) ∧
      (launchAll 2 9223372036854775807 3).map
          (fun l => l.shards.all (fun sh => decide (sh.end_ < sh.start)))
        = some true := by
  decide

/-! ## Thread-count normalisation and empty input -/

theorem threadCount_pos (W : Int) : 1 ≤ threadCount W := by
  unfold threadCount
  split <;> omega

theorem rangesPerThread_isSome (rangeCount W : Int) :
    rangesPerThread rangeCount (threadCount W) ≠ none := by
  have h := threadCount_pos W
  unfold rangesPerThread goDiv
  rw [if_neg (by omega)]
  simp

theorem rangesPerThread_one (N : Int) (hlo : 0 ≤ N) (hhi : N ≤ intMax) :
    rangesPerThread N 1 = some N := by
  unfold intMax at hhi
  have h1 : goSub (goAdd N 1) 1 = N := by
    unfold goSub goAdd wrapInt
    omega
  unfold rangesPerThread goDiv
  rw [h1, if_neg (by omega), Int.tdiv_one, wrapInt_of_inRange N (by unfold intMin; omega)
    (by unfold intMax; omega)]

theorem launchLoop_whole (N : Int) (hN : 1 ≤ N) (hhi : N ≤ intMax) (fuel : Nat) :
    launchLoop N N (fuel + 1) 0 = ⟨[⟨0, N⟩], true⟩ := by
  have hadd : goAdd 0 N = N := by
    unfold goAdd
    rw [Int.zero_add]
    exact wrapInt_of_inRange N (by unfold intMin; omega) hhi
  have h0 : (0 : Int) < N := by omega
  cases fuel <;> simp [launchLoop, hadd, h0]

/-- C4: a thread count `W ≤ 0` is replaced by 1, after which the division in
`rangesPerThread` has a non-zero divisor whatever the number of ranges, the whole
program runs, under every schedule, as it does for `-threads=1`, and a list of
`N ≥ 1` ranges is launched as the single shard `[0, N)`. -/
theorem nonpositive_threads_as_one {ω : Type} (env : Env ω) (W : Int) (hW : W ≤ 0) :
    threadCount W = 1 ∧
      (∀ rangeCount : Int, rangesPerThread rangeCount (threadCount W) ≠ none) ∧
      (∀ (fuel : Nat) (schedule : List Nat), main { env with threadsFlag := W } fuel schedule
        = main { env with threadsFlag := 1 } fuel schedule) ∧
      (∀ (N : Int) (fuel : Nat), 1 ≤ N → N ≤ intMax →
        launchAll N W (fuel + 1) = some ⟨[⟨0, N⟩], true⟩) := by
  have htc : threadCount W = 1 := by
    unfold threadCount
    rw [if_pos hW]
  refine ⟨htc, fun rc => rangesPerThread_isSome rc W, ?_, ?_⟩
  · intro fuel schedule
    have hl : ∀ rc : Int, launchAll rc W fuel = launchAll rc 1 fuel := by
      intro rc
      unfold launchAll
      rw [htc]
      rfl
    simp only [main, hl, finalPool]
  · intro N fuel hN hhi
    unfold launchAll
    rw [htc, rangesPerThread_one N (by omega) hhi]
    simp only [launchLoop_whole N hN hhi fuel]

/-- Witness of `nonpositive_threads_as_one`: `-threads=-4`. -/
theorem nonpositive_threads_as_one_witness :
    threadCount (-4) = 1 ∧
      (∀ rangeCount : Int, rangesPerThread rangeCount (threadCount (-4)) ≠ none) ∧
      (∀ (fuel : Nat) (schedule : List Nat),
        main { sampleEnv ["10.0.0.0/30", "10.0.0.4/30"] 0 with threadsFlag := -4 } fuel schedule
          = main { sampleEnv ["10.0.0.0/30", "10.0.0.4/30"] 0 with threadsFlag := 1 } fuel
            schedule) ∧
      (∀ (N : Int) (fuel : Nat), 1 ≤ N → N ≤ intMax →
        launchAll N (-4) (fuel + 1) = some ⟨[⟨0, N⟩], true⟩) :=
  nonpositive_threads_as_one (sampleEnv ["10.0.0.0/30", "10.0.0.4/30"] 0) (-4) (by decide)

theorem rangesPerThread_zero (W : Int) (hhi : W ≤ intMax) :
    rangesPerThread 0 (threadCount W) = some 0 := by
  have h1 := threadCount_pos W
  have h2 : threadCount W ≤ intMax := by
    unfold threadCount
    split
    · decide
    · exact hhi
  unfold intMax at h2
  have h3 : goSub (goAdd 0 (threadCount W)) 1 = threadCount W - 1 := by
    unfold goSub goAdd wrapInt
    omega
  unfold rangesPerThread goDiv
  rw [h3, if_neg (by omega), Int.tdiv_eq_zero_of_lt (by omega) (by omega)]
  rfl

theorem launchLoop_empty (rpt : Int) (fuel : Nat) : launchLoop 0 rpt fuel 0 = ⟨[], true⟩ := by
  cases fuel <;> simp [launchLoop]

theorem launchAll_empty (W : Int) (fuel : Nat) : launchAll 0 W fuel = some ⟨[], true⟩ := by
  unfold launchAll
  cases h : rangesPerThread 0 (threadCount W) with
  | none => exact absurd h (rangesPerThread_isSome 0 W)
  | some rpt => simp only [launchLoop_empty]

theorem runSchedule_no_task {ω : Type} (check : CheckFn ω) (ipRanges : IPRange)
    (keyword : String) (schedule : List Nat) (s : Scan ω) :
    runSchedule check ipRanges keyword schedule (Pool.start [] s) = Pool.start [] s := by
  induction schedule with
  | nil => rfl
  | cons w rest ih =>
    have hstep : Pool.step check ipRanges keyword (Pool.start [] s) w = Pool.start [] s := by
      simp [Pool.step, Pool.start]
    simp only [runSchedule, hstep, ih]

/-- C5: when the range source delivers an empty list, then for every thread
count (a Go `int`), with any fuel and under every schedule, `rangesPerThread` is
0, the launch loop ends without an iteration and launches no worker, `eg.Wait`
over no worker reports no error, and the program exits with status 0 having
printed nothing and having checked no range. -/
theorem empty_input_completes {ω : Type} (env : Env ω) (fuel : Nat) (schedule : List Nat)
    (hkey : env.keywordFlag ≠ "") (hsrc : getIPRanges env.source = (some ⟨[]⟩, none))
    (hhi : env.threadsFlag ≤ intMax) :
    rangesPerThread 0 (threadCount env.threadsFlag) = some 0 ∧
      launchAll 0 env.threadsFlag fuel = some ⟨[], true⟩ ∧
      egWait [] = none ∧
      main env fuel schedule = ⟨[], .exit 0, [], []⟩ := by
  refine ⟨rangesPerThread_zero _ hhi, launchAll_empty _ _, rfl, ?_⟩
  unfold main
  rw [if_neg hkey, hsrc]
  simp only [List.length_nil, Nat.cast_zero, launchAll_empty, finalPool, runSchedule_no_task]
  rfl

/-- Witness of `empty_input_completes`: no range, three threads, a schedule
that names goroutines that do not exist. -/
theorem empty_input_completes_witness :
    rangesPerThread 0 (threadCount (sampleEnv [] 3).threadsFlag) = some 0 ∧
      launchAll 0 (sampleEnv [] 3).threadsFlag 0 = some ⟨[], true⟩ ∧
      egWait [] = none ∧
      main (sampleEnv [] 3) 0 [0, 2, 1] = ⟨[], .exit 0, [], []⟩ :=
  empty_input_completes (sampleEnv [] 3) 0 [0, 2, 1] (by decide) (by rfl) (by decide)

/-! ## Failure of the range source -/

/-- C7: `getIPRanges` returns an error exactly when `http.Get` fails, or reading
the body fails, or the body does not unmarshal; with the error it returns a nil
range list, and otherwise it returns the unmarshalled list and no error.
Whenever it returns an error, `main` ends, under every schedule, with exit
status 1 without having launched a worker or checked a range, and (the keyword
being given) its only output is the fatal message carrying that error. -/
theorem source_failure_is_fatal {ω : Type} (env : Env ω) (fuel : Nat) (schedule : List Nat) :
    ((getIPRanges env.source).2 ≠ none ↔
        ((∃ e, env.source.httpGet = .error e) ∨
          (∃ body e, env.source.httpGet = .ok body ∧ env.source.readAll body = .error e) ∨
          (∃ body data e, env.source.httpGet = .ok body ∧ env.source.readAll body = .ok data ∧
            env.source.unmarshal data = .error e))) ∧
      ((getIPRanges env.source).2 ≠ none → (getIPRanges env.source).1 = none) ∧
      (∀ body data ipRanges, env.source.httpGet = .ok body →
        env.source.readAll body = .ok data → env.source.unmarshal data = .ok ipRanges →
          getIPRanges env.source = (some ipRanges, none)) ∧
      (∀ err, (getIPRanges env.source).2 = some err →
        (main env fuel schedule).launched = [] ∧ (main env fuel schedule).checked = [] ∧
          (main env fuel schedule).ending = .exit 1 ∧
          (env.keywordFlag ≠ "" →
            (main env fuel schedule).events =
              [.fatal ("Error fetching IP ranges: " ++ err)])) := by
  refine ⟨?_, ?_, ?_, ?_⟩
  · unfold getIPRanges
    cases hg : env.source.httpGet with
    | error e => simp
    | ok body =>
      cases hr : env.source.readAll body with
      | error e => simp [hr]
      | ok data =>
        cases hu : env.source.unmarshal data with
        | error e => simp [hr, hu]
        | ok r => simp [hr, hu]
  · unfold getIPRanges
    cases hg : env.source.httpGet with
    | error e => simp
    | ok body =>
      cases hr : env.source.readAll body with
      | error e => simp [hr]
      | ok data =>
        cases hu : env.source.unmarshal data with
        | error e => simp [hr, hu]
        | ok r => simp [hr, hu]
  · intro body data r hg hr hu
    simp [getIPRanges, hg, hr, hu]
  · intro err herr
    unfold main
    by_cases hkey : env.keywordFlag = ""
    · simp [hkey]
    · rw [if_neg hkey]
      cases hget : getIPRanges env.source with
      | mk r e =>
        rw [hget] at herr
        simp only at herr
        subst herr
        simp

/-! ## The worker closure -/

theorem indices_of_ge (a b : Int) (h : b ≤ a) : Shard.indices ⟨a, b⟩ = [] := by
  unfold Shard.indices
  have : (b - a).toNat = 0 := by omega
  simp [this]

theorem indices_cons (a b : Int) (h : a < b) :
    Shard.indices ⟨a, b⟩ = a :: Shard.indices ⟨a + 1, b⟩ := by
  unfold Shard.indices
  have hn : (b - a).toNat = (b - (a + 1)).toNat + 1 := by omega
  simp only [hn, List.range_succ_eq_map, List.map_cons, List.map_map, Nat.cast_zero,
    Int.add_zero, List.cons.injEq, true_and]
  apply List.map_congr_left
  intro k _
  simp only [Function.comp_apply, Nat.cast_succ]
  omega

theorem goIndex_isSome {α : Type} (xs : List α) (j : Int) (h0 : 0 ≤ j)
    (hlt : j < (xs.length : Int)) : ∃ x, goIndex xs j = some x := by
  unfold goIndex
  rw [if_pos h0]
  cases hx : xs.get? j.toNat with
  | some x => exact ⟨x, rfl⟩
  | none =>
    rw [List.get?_eq_none] at hx
    omega

theorem stateAfter_step {ω : Type} (check : CheckFn ω) (ipRanges : IPRange) (keyword : String)
    (j i : Int) (s s1 : Scan ω) (p : PrefixEntry) (r : Option String) (hji : j < i)
    (hp : goIndex ipRanges.Prefixes j = some p) (hc : check s p.IPPrefix keyword = (s1, r)) :
    stateAfter check ipRanges keyword (Shard.indices ⟨j, i⟩) s =
      stateAfter check ipRanges keyword (Shard.indices ⟨j + 1, i⟩) s1 := by
  rw [indices_cons j i hji]
  simp only [stateAfter, hp, hc]

theorem workerLoop_done {ω : Type} (check : CheckFn ω) (ipRanges : IPRange) (keyword : String)
    (end_ : Int) (fuel : Nat) (j : Int) (s : Scan ω) (h : ¬ j < end_) :
    workerLoop check ipRanges keyword end_ fuel j s = ⟨.returned none, [], s⟩ := by
  cases fuel <;> simp [workerLoop, h]

theorem workerLoop_spec {ω : Type} (check : CheckFn ω) (ipRanges : IPRange) (keyword : String)
    (end_ : Int) (hN : end_ ≤ (ipRanges.Prefixes.length : Int)) (hmax : end_ ≤ intMax)
    (fuel : Nat) :
    ∀ (j : Int) (s : Scan ω), 0 ≤ j → (end_ - j).toNat ≤ fuel →
      ((workerLoop check ipRanges keyword end_ fuel j s).result = .returned none ∧
        (workerLoop check ipRanges keyword end_ fuel j s).calls =
          (Shard.indices ⟨j, end_⟩).map (fun i => (i, none)) ∧
        (workerLoop check ipRanges keyword end_ fuel j s).state =
          stateAfter check ipRanges keyword (Shard.indices ⟨j, end_⟩) s ∧
        ∀ i q, j ≤ i → i < end_ → goIndex ipRanges.Prefixes i = some q →
          (check (stateAfter check ipRanges keyword (Shard.indices ⟨j, i⟩) s)
            q.IPPrefix keyword).2 = none) ∨
      (∃ k p err, j ≤ k ∧ k < end_ ∧ goIndex ipRanges.Prefixes k = some p ∧
        check (stateAfter check ipRanges keyword (Shard.indices ⟨j, k⟩) s) p.IPPrefix keyword =
          ((workerLoop check ipRanges keyword end_ fuel j s).state, some err) ∧
        (∀ i q, j ≤ i → i < k → goIndex ipRanges.Prefixes i = some q →
          (check (stateAfter check ipRanges keyword (Shard.indices ⟨j, i⟩) s)
            q.IPPrefix keyword).2 = none) ∧
        (workerLoop check ipRanges keyword end_ fuel j s).calls =
          (Shard.indices ⟨j, k⟩).map (fun i => (i, none)) ++ [(k, some err)] ∧
        (workerLoop check ipRanges keyword end_ fuel j s).result =
          .returned (some ⟨p.IPPrefix, err⟩)) := by
  have hdone : ∀ (fuel : Nat) (j : Int) (s : Scan ω), ¬ j < end_ →
      workerLoop check ipRanges keyword end_ fuel j s = ⟨.returned none, [], s⟩ :=
    fun fuel j s h => workerLoop_done check ipRanges keyword end_ fuel j s h
  induction fuel with
  | zero =>
    intro j s _ hf
    have hge : ¬ j < end_ := by omega
    left
    rw [hdone 0 j s hge, indices_of_ge j end_ (by omega)]
    exact ⟨rfl, rfl, rfl, fun i q h1 h2 => by omega⟩
  | succ fuel ih =>
    intro j s h0 hf
    by_cases hlt : j < end_
    · obtain ⟨p, hp⟩ := goIndex_isSome ipRanges.Prefixes j h0 (by omega)
      have hadd : goAdd j 1 = j + 1 := by
        unfold goAdd
        exact wrapInt_of_inRange _ (by unfold intMin; omega) (by unfold intMax at *; omega)
      cases hc : check s p.IPPrefix keyword with
      | mk s1 r =>
        cases r with
        | some err =>
          right
          refine ⟨j, p, err, le_refl j, hlt, hp, ?_, fun i q h1 h2 => by omega, ?_, ?_⟩
          · rw [indices_of_ge j j (le_refl j)]
            simp [stateAfter, workerLoop, hlt, hp, hc]
          · rw [indices_of_ge j j (le_refl j)]
            simp [workerLoop, hlt, hp, hc]
          · simp [workerLoop, hlt, hp, hc]
        | none =>
          have hrun : workerLoop check ipRanges keyword end_ (fuel + 1) j s =
              ⟨(workerLoop check ipRanges keyword end_ fuel (j + 1) s1).result,
                (j, none) :: (workerLoop check ipRanges keyword end_ fuel (j + 1) s1).calls,
                (workerLoop check ipRanges keyword end_ fuel (j + 1) s1).state⟩ := by
            simp [workerLoop, hlt, hp, hc, hadd]
          have hfirst : ∀ (bound i : Int) (q : PrefixEntry), j ≤ i → i < bound →
              goIndex ipRanges.Prefixes i = some q →
              (∀ i2 q2, j + 1 ≤ i2 → i2 < bound → goIndex ipRanges.Prefixes i2 = some q2 →
                (check (stateAfter check ipRanges keyword (Shard.indices ⟨j + 1, i2⟩) s1)
                  q2.IPPrefix keyword).2 = none) →
              (check (stateAfter check ipRanges keyword (Shard.indices ⟨j, i⟩) s)
                q.IPPrefix keyword).2 = none := by
            intro bound i q hji hib hq hrest
            by_cases hij : i = j
            · subst hij
              rw [hp] at hq
              cases hq
              rw [indices_of_ge i i (le_refl i)]
              simp [stateAfter, hc]
            · rw [stateAfter_step check ipRanges keyword j i s s1 p none (by omega) hp hc]
              exact hrest i q (by omega) hib hq
          rcases ih (j + 1) s1 (by omega) (by omega) with
            hok | ⟨k, pk, err, hk1, hk2, hpk, hck, hbefore, hcalls, hres⟩
          · left
            obtain ⟨hres, hcalls, hstate, hall⟩ := hok
            rw [hrun]
            refine ⟨hres, ?_, ?_, ?_⟩
            · simp only [hcalls, indices_cons j end_ hlt, List.map_cons]
            · simp only [hstate]
              exact (stateAfter_step check ipRanges keyword j end_ s s1 p none hlt hp hc).symm
            · intro i q h1 h2 hq
              exact hfirst end_ i q h1 h2 hq hall
          · right
            rw [hrun]
            refine ⟨k, pk, err, by omega, hk2, hpk, ?_, ?_, ?_, hres⟩
            · rw [stateAfter_step check ipRanges keyword j k s s1 p none (by omega) hp hc]
              exact hck
            · intro i q h1 h2 hq
              exact hfirst k i q h1 h2 hq hbefore
            · simp only [hcalls, indices_cons j k (by omega), List.map_cons, List.cons_append]
    · left
      rw [hdone (fuel + 1) j s hlt, indices_of_ge j end_ (by omega)]
      exact ⟨rfl, rfl, rfl, fun i q h1 h2 => by omega⟩

/-- C9: a worker whose shard `[start, end)` is empty or lies within the list
calls `checkIPRange` on the indices of its shard in ascending order, starting
from the first. Either every call returns nil: then each index of the shard has been
checked exactly once and the worker returns nil. Or some call fails: then the
failing index `k` is the lowest of the shard whose call fails (every call before
it returned nil), no index after `k` is checked, and the worker returns a
`CheckIPRangeError` whose `IPRange` is the range at `k` and whose `Err` is the
error of that call, with message "error checking IP range <range>: <err>". With
fuel for as many iterations as the shard has indices, the worker does return. -/
theorem worker_fail_fast {ω : Type} (check : CheckFn ω) (ipRanges : IPRange) (keyword : String)
    (sh : Shard) (fuel : Nat) (s : Scan ω)
    (hin : sh.start < sh.end_ → 0 ≤ sh.start ∧ sh.end_ ≤ (ipRanges.Prefixes.length : Int))
    (hmax : sh.end_ ≤ intMax) (hfuel : sh.size ≤ fuel) :
    ((worker check ipRanges keyword sh fuel s).result = .returned none ∧
        (worker check ipRanges keyword sh fuel s).calls = sh.indices.map (fun i => (i, none)) ∧
        ∀ i q, sh.start ≤ i → i < sh.end_ → goIndex ipRanges.Prefixes i = some q →
          (check (stateAfter check ipRanges keyword (Shard.indices ⟨sh.start, i⟩) s)
            q.IPPrefix keyword).2 = none) ∨
      (∃ k p err, sh.start ≤ k ∧ k < sh.end_ ∧ goIndex ipRanges.Prefixes k = some p ∧
        (check (stateAfter check ipRanges keyword (Shard.indices ⟨sh.start, k⟩) s)
          p.IPPrefix keyword).2 = some err ∧
        (∀ i q, sh.start ≤ i → i < k → goIndex ipRanges.Prefixes i = some q →
          (check (stateAfter check ipRanges keyword (Shard.indices ⟨sh.start, i⟩) s)
            q.IPPrefix keyword).2 = none) ∧
        (worker check ipRanges keyword sh fuel s).calls =
          (Shard.indices ⟨sh.start, k⟩).map (fun i => (i, none)) ++ [(k, some err)] ∧
        (worker check ipRanges keyword sh fuel s).result =
          .returned (some ⟨p.IPPrefix, err⟩) ∧
        (⟨p.IPPrefix, err⟩ : CheckIPRangeError).Error =
          "error checking IP range " ++ p.IPPrefix ++ ": " ++ err) := by
  unfold worker
  by_cases hne : sh.start < sh.end_
  · obtain ⟨h0, hN⟩ := hin hne
    rcases workerLoop_spec check ipRanges keyword sh.end_ hN hmax fuel sh.start s h0 hfuel with
      hok | ⟨k, p, err, hk1, hk2, hp, hck, hbefore, hcalls, hres⟩
    · left
      exact ⟨hok.1, hok.2.1, hok.2.2.2⟩
    · right
      exact ⟨k, p, err, hk1, hk2, hp, by rw [hck], hbefore, hcalls, hres, rfl⟩
  · left
    rw [workerLoop_done check ipRanges keyword sh.end_ fuel sh.start s hne]
    have hnil : sh.indices = [] := indices_of_ge sh.start sh.end_ (by omega)
    rw [hnil]
    exact ⟨rfl, rfl, fun i q h1 h2 => by omega⟩

/-- Witness of `worker_fail_fast`: the shard `[0, 3)` of three ranges, the
second of which fails. -/
theorem worker_fail_fast_witness :
    ((worker sampleCheck sampleRanges "example" ⟨0, 3⟩ 3 ⟨(), []⟩).result
          = .returned none ∧
        (worker sampleCheck sampleRanges "example" ⟨0, 3⟩ 3 ⟨(), []⟩).calls
          = (Shard.indices ⟨0, 3⟩).map (fun i => (i, none)) ∧
        ∀ i q, (0 : Int) ≤ i → i < 3 →
          goIndex sampleRanges.Prefixes i = some q →
          (sampleCheck (stateAfter sampleCheck sampleRanges "example"
            (Shard.indices ⟨0, i⟩) ⟨(), []⟩) q.IPPrefix "example").2 = none) ∨
      (∃ k p err, (0 : Int) ≤ k ∧ k < 3 ∧
        goIndex sampleRanges.Prefixes k = some p ∧
        (sampleCheck (stateAfter sampleCheck sampleRanges "example"
          (Shard.indices ⟨0, k⟩) ⟨(), []⟩) p.IPPrefix "example").2 = some err ∧
        (∀ i q, (0 : Int) ≤ i → i < k →
          goIndex sampleRanges.Prefixes i = some q →
          (sampleCheck (stateAfter sampleCheck sampleRanges "example"
            (Shard.indices ⟨0, i⟩) ⟨(), []⟩) q.IPPrefix "example").2 = none) ∧
        (worker sampleCheck sampleRanges "example" ⟨0, 3⟩ 3 ⟨(), []⟩).calls =
          (Shard.indices ⟨0, k⟩).map (fun i => (i, none)) ++ [(k, some err)] ∧
        (worker sampleCheck sampleRanges "example" ⟨0, 3⟩ 3 ⟨(), []⟩).result =
          .returned (some ⟨p.IPPrefix, err⟩) ∧
        (⟨p.IPPrefix, err⟩ : CheckIPRangeError).Error =
          "error checking IP range " ++ p.IPPrefix ++ ": " ++ err) :=
  worker_fail_fast sampleCheck sampleRanges "example" ⟨0, 3⟩ 3 ⟨(), []⟩
    (fun _ => by decide) (by decide) (by decide)

/-! ## One step of a goroutine -/

theorem worker_one_done {ω : Type} (check : CheckFn ω) (ipRanges : IPRange) (keyword : String)
    (sh : Shard) (s : Scan ω) (h : ¬ sh.start < sh.end_) :
    worker check ipRanges keyword sh 1 s = ⟨.returned none, [], s⟩ := by
  simp [worker, workerLoop, h]

theorem worker_one_index {ω : Type} (check : CheckFn ω) (ipRanges : IPRange) (keyword : String)
    (sh : Shard) (s : Scan ω) (h : sh.start < sh.end_)
    (hp : goIndex ipRanges.Prefixes sh.start = none) :
    worker check ipRanges keyword sh 1 s = ⟨.indexOutOfRange, [], s⟩ := by
  simp [worker, workerLoop, h, hp]

theorem worker_one_error {ω : Type} (check : CheckFn ω) (ipRanges : IPRange) (keyword : String)
    (sh : Shard) (s s1 : Scan ω) (p : PrefixEntry) (err : String) (h : sh.start < sh.end_)
    (hp : goIndex ipRanges.Prefixes sh.start = some p)
    (hc : check s p.IPPrefix keyword = (s1, some err)) :
    worker check ipRanges keyword sh 1 s =
      ⟨.returned (some ⟨p.IPPrefix, err⟩), [(sh.start, some err)], s1⟩ := by
  simp [worker, workerLoop, h, hp, hc]

theorem worker_one_ok {ω : Type} (check : CheckFn ω) (ipRanges : IPRange) (keyword : String)
    (sh : Shard) (s s1 : Scan ω) (p : PrefixEntry) (h : sh.start < sh.end_)
    (hp : goIndex ipRanges.Prefixes sh.start = some p)
    (hc : check s p.IPPrefix keyword = (s1, none)) :
    worker check ipRanges keyword sh 1 s =
      ⟨if goAdd sh.start 1 < sh.end_ then .running else .returned none,
        [(sh.start, none)], s1⟩ := by
  simp only [worker, workerLoop, h, hp, hc, if_true]
  split <;> rfl

/-! ## The pool under a schedule -/

theorem stateAfter_append_one {ω : Type} (check : CheckFn ω) (ipRanges : IPRange)
    (keyword : String) (j : Int) (p : PrefixEntry)
    (hp : goIndex ipRanges.Prefixes j = some p) :
    ∀ (l : List Int) (s : Scan ω), (∀ i ∈ l, ∃ q, goIndex ipRanges.Prefixes i = some q) →
      stateAfter check ipRanges keyword (l ++ [j]) s =
        (check (stateAfter check ipRanges keyword l s) p.IPPrefix keyword).1 := by
  intro l
  induction l with
  | nil =>
    intro s _
    simp [stateAfter, hp]
  | cons i rest ih =>
    intro s hl
    obtain ⟨q, hq⟩ := hl i (List.mem_cons_self _ _)
    simp only [List.cons_append, stateAfter, hq]
    exact ih _ (fun i2 h2 => hl i2 (List.mem_cons_of_mem _ h2))

theorem responses_append_one {ω : Type} (check : CheckFn ω) (ipRanges : IPRange)
    (keyword : String) (j : Int) (p : PrefixEntry)
    (hp : goIndex ipRanges.Prefixes j = some p) :
    ∀ (l : List Int) (s : Scan ω), (∀ i ∈ l, ∃ q, goIndex ipRanges.Prefixes i = some q) →
      responses check ipRanges keyword (l ++ [j]) s =
        responses check ipRanges keyword l s ++
          [(j, (check (stateAfter check ipRanges keyword l s) p.IPPrefix keyword).2)] := by
  intro l
  induction l with
  | nil =>
    intro s _
    simp [responses, stateAfter, hp]
  | cons i rest ih =>
    intro s hl
    obtain ⟨q, hq⟩ := hl i (List.mem_cons_self _ _)
    simp only [List.cons_append, responses, stateAfter, hq, List.cons.injEq, true_and]
    exact ih _ (fun i2 h2 => hl i2 (List.mem_cons_of_mem _ h2))

theorem errorsOf_append (ipRanges : IPRange) (l1 l2 : List (Int × Option String)) :
    errorsOf ipRanges (l1 ++ l2) = errorsOf ipRanges l1 ++ errorsOf ipRanges l2 := by
  induction l1 with
  | nil => rfl
  | cons c rest ih =>
    obtain ⟨j, r⟩ := c
    cases r with
    | none => simpa [errorsOf] using ih
    | some err =>
      cases hp : goIndex ipRanges.Prefixes j with
      | none => simpa [errorsOf, hp] using ih
      | some p => simpa [errorsOf, hp] using ih

theorem Pool.sound_start {ω : Type} (check : CheckFn ω) (ipRanges : IPRange) (keyword : String)
    (shards : List Shard) (s0 : Scan ω) :
    Pool.Sound check ipRanges keyword s0 (Pool.start shards s0) :=
  ⟨fun c hc => by simp [Pool.start] at hc, rfl, rfl, rfl⟩

theorem Pool.sound_call {ω : Type} (check : CheckFn ω) (ipRanges : IPRange) (keyword : String)
    (s0 : Scan ω) (pool : Pool ω) (h : Pool.Sound check ipRanges keyword s0 pool)
    (j : Int) (p : PrefixEntry) (hp : goIndex ipRanges.Prefixes j = some p)
    (tasks : List Task) (returned : List (Option CheckIPRangeError))
    (hret : returned.reduceOption = pool.returned.reduceOption ++
      errorsOf ipRanges [(j, (check pool.state p.IPPrefix keyword).2)]) :
    Pool.Sound check ipRanges keyword s0
      ⟨tasks, returned, pool.calls ++ [(j, (check pool.state p.IPPrefix keyword).2)],
        (check pool.state p.IPPrefix keyword).1⟩ := by
  have hvalid : ∀ i ∈ pool.calls.map Prod.fst, ∃ q, goIndex ipRanges.Prefixes i = some q := by
    intro i hi
    obtain ⟨c, hc, rfl⟩ := List.mem_map.mp hi
    exact h.valid c hc
  refine ⟨?_, ?_, ?_, ?_⟩
  · intro c hc
    rcases List.mem_append.mp hc with h1 | h1
    · exact h.valid c h1
    · simp only [List.mem_singleton] at h1
      subst h1
      exact ⟨p, hp⟩
  · simp only [List.map_append, List.map_cons, List.map_nil]
    rw [responses_append_one check ipRanges keyword j p hp _ s0 hvalid, ← h.log, ← h.state]
  · simp only [List.map_append, List.map_cons, List.map_nil]
    rw [stateAfter_append_one check ipRanges keyword j p hp _ s0 hvalid, ← h.state]
  · simp only
    rw [hret, errorsOf_append, h.errors]

theorem Pool.sound_step {ω : Type} (check : CheckFn ω) (ipRanges : IPRange) (keyword : String)
    (s0 : Scan ω) (pool : Pool ω) (w : Nat) (h : Pool.Sound check ipRanges keyword s0 pool) :
    Pool.Sound check ipRanges keyword s0 (Pool.step check ipRanges keyword pool w) := by
  unfold Pool.step
  split
  · exact h
  · exact h
  · rename_i sh _
    by_cases hlt : sh.start < sh.end_
    · cases hp : goIndex ipRanges.Prefixes sh.start with
      | none =>
        rw [worker_one_index check ipRanges keyword sh pool.state hlt hp]
        exact ⟨by simpa using h.valid, by simpa using h.log, by simpa using h.state,
          by simpa using h.errors⟩
      | some p =>
        cases hc : check pool.state p.IPPrefix keyword with
        | mk s1 r =>
          have hs1 : s1 = (check pool.state p.IPPrefix keyword).1 := by rw [hc]
          have hr : r = (check pool.state p.IPPrefix keyword).2 := by rw [hc]
          cases r with
          | some err =>
            rw [worker_one_error check ipRanges keyword sh pool.state s1 p err hlt hp hc]
            simp only
            rw [hs1, show (some err : Option String) = (check pool.state p.IPPrefix keyword).2
              from hr]
            apply Pool.sound_call check ipRanges keyword s0 pool h sh.start p hp
            rw [← hr]
            simp [errorsOf, hp, List.reduceOption_append]
          | none =>
            rw [worker_one_ok check ipRanges keyword sh pool.state s1 p hlt hp hc]
            split
            · simp only
              rw [hs1, show (none : Option String) =
                (check pool.state p.IPPrefix keyword).2 from hr]
              apply Pool.sound_call check ipRanges keyword s0 pool h sh.start p hp
              rw [← hr]
              simp [errorsOf]
            · simp only
              rw [hs1, show (none : Option String) =
                (check pool.state p.IPPrefix keyword).2 from hr]
              apply Pool.sound_call check ipRanges keyword s0 pool h sh.start p hp
              rw [← hr]
              simp [errorsOf, List.reduceOption_append]
    · rw [worker_one_done check ipRanges keyword sh pool.state hlt]
      exact ⟨by simpa using h.valid, by simpa using h.log, by simpa using h.state,
        by simpa [List.reduceOption_append] using h.errors⟩

theorem Pool.sound_run {ω : Type} (check : CheckFn ω) (ipRanges : IPRange) (keyword : String)
    (s0 : Scan ω) (schedule : List Nat) :
    ∀ pool : Pool ω, Pool.Sound check ipRanges keyword s0 pool →
      Pool.Sound check ipRanges keyword s0 (runSchedule check ipRanges keyword schedule pool) := by
  induction schedule with
  | nil => exact fun pool h => h
  | cons w rest ih =>
    intro pool h
    exact ih _ (Pool.sound_step check ipRanges keyword s0 pool w h)

/-! ## Joining the workers and reporting -/

theorem egWait_eq_none (returned : List (Option CheckIPRangeError)) :
    egWait returned = none ↔ ∀ r ∈ returned, r = none := by
  induction returned with
  | nil => simp [egWait]
  | cons r rest ih =>
    cases r with
    | none => simp [egWait, ih]
    | some e => simp [egWait]

theorem egWait_eq_some (returned : List (Option CheckIPRangeError)) (e : CheckIPRangeError)
    (h : egWait returned = some e) :
    ∃ before after, returned = before ++ some e :: after ∧ ∀ r ∈ before, r = none := by
  induction returned with
  | nil => simp [egWait] at h
  | cons r rest ih =>
    cases r with
    | none =>
      simp only [egWait] at h
      obtain ⟨before, after, hsplit, hnone⟩ := ih h
      refine ⟨none :: before, after, by rw [hsplit]; rfl, ?_⟩
      intro r hr
      rcases List.mem_cons.mp hr with h1 | h1
      · exact h1
      · exact hnone r h1
    | some e2 =>
      simp only [egWait, Option.some.injEq] at h
      subst h
      exact ⟨[], rest, rfl, fun r hr => by simp at hr⟩

theorem report_not_both (returned : List (Option CheckIPRangeError)) (keys : List String) :
    ¬ ((∃ message, Event.fatal message ∈ (report returned keys).1) ∧
      (∃ key, Event.found key ∈ (report returned keys).1)) := by
  cases hw : egWait returned with
  | none => simp [report, hw]
  | some e => simp [report, hw]

theorem main_not_both {ω : Type} (env : Env ω) (fuel : Nat) (schedule : List Nat) :
    ¬ ((∃ message, Event.fatal message ∈ (main env fuel schedule).events) ∧
      (∃ key, Event.found key ∈ (main env fuel schedule).events)) := by
  unfold main
  split
  · simp
  · split
    · simp
    · simp
    · split
      · simp
      · simp only
        split
        · simp
        · split
          · simp
          · exact report_not_both _ _

theorem egWait_eq_head (returned : List (Option CheckIPRangeError)) :
    egWait returned = returned.reduceOption.head? := by
  induction returned with
  | nil => rfl
  | cons r rest ih =>
    cases r with
    | none => simpa [egWait, List.reduceOption_cons_of_none] using ih
    | some e => simp [egWait, List.reduceOption_cons_of_some]

theorem errorsOf_all_none (ipRanges : IPRange) (calls : List (Int × Option String))
    (h : ∀ c ∈ calls, c.2 = none) : errorsOf ipRanges calls = [] := by
  induction calls with
  | nil => rfl
  | cons c rest ih =>
    obtain ⟨j, r⟩ := c
    have hr : r = none := h (j, r) (List.mem_cons_self _ _)
    subst hr
    simpa [errorsOf] using ih (fun c hc => h c (List.mem_cons_of_mem _ hc))

theorem errorsOf_first (ipRanges : IPRange) (calls : List (Int × Option String))
    (hvalid : ∀ c ∈ calls, ∃ p, goIndex ipRanges.Prefixes c.1 = some p)
    (h : ∃ j err, (j, some err) ∈ calls) :
    ∃ before j err after p, calls = before ++ (j, some err) :: after ∧
      (∀ c ∈ before, c.2 = none) ∧ goIndex ipRanges.Prefixes j = some p ∧
      (errorsOf ipRanges calls).head? = some ⟨p.IPPrefix, err⟩ := by
  induction calls with
  | nil =>
    obtain ⟨j, err, hmem⟩ := h
    simp at hmem
  | cons c rest ih =>
    obtain ⟨i, r⟩ := c
    obtain ⟨p, hp⟩ := hvalid (i, r) (List.mem_cons_self _ _)
    cases r with
    | some err =>
      exact ⟨[], i, err, rest, p, rfl, fun c hc => by simp at hc, hp, by simp [errorsOf, hp]⟩
    | none =>
      have hrest : ∃ j err, (j, some err) ∈ rest := by
        obtain ⟨j, err, hmem⟩ := h
        rcases List.mem_cons.mp hmem with h1 | h1
        · cases h1
        · exact ⟨j, err, h1⟩
      obtain ⟨before, j, err, after, q, hsplit, hnone, hq, hhead⟩ :=
        ih (fun c hc => hvalid c (List.mem_cons_of_mem _ hc)) hrest
      refine ⟨(i, none) :: before, j, err, after, q, by rw [hsplit]; rfl, ?_, hq, ?_⟩
      · intro c hc
        rcases List.mem_cons.mp hc with h1 | h1
        · rw [h1]
        · exact hnone c h1
      · simpa [errorsOf] using hhead

theorem main_reports {ω : Type} (env : Env ω) (fuel : Nat) (schedule : List Nat)
    (ipRanges : IPRange) (launch : Launch) (hkey : env.keywordFlag ≠ "")
    (hsrc : getIPRanges env.source = (some ipRanges, none))
    (hlaunch : launchAll (ipRanges.Prefixes.length : Int) env.threadsFlag fuel = some launch)
    (hend : ∃ code, (main env fuel schedule).ending = .exit code) :
    (main env fuel schedule).events =
        (report (finalPool env ipRanges launch.shards schedule).returned
          (finalPool env ipRanges launch.shards schedule).state.ipAddresses).1 ∧
      (main env fuel schedule).ending =
        (report (finalPool env ipRanges launch.shards schedule).returned
          (finalPool env ipRanges launch.shards schedule).state.ipAddresses).2 := by
  obtain ⟨code, hcode⟩ := hend
  unfold main at hcode ⊢
  rw [if_neg hkey, hsrc] at hcode ⊢
  simp only [hlaunch] at hcode ⊢
  split at hcode
  · cases hcode
  · split at hcode
    · cases hcode
    · rename_i h1 h2
      rw [if_neg h1, if_neg h2]
      exact ⟨rfl, rfl⟩

/-- C6: the program reports either an error or the matches, never both, however
its goroutines are interleaved. For every schedule under which `main` comes to
its end (keyword given, ranges fetched): the log of calls is what `checkIPRange`
answers when called in that order on an initially empty result set; if some call
of `checkIPRange` returned an error, the only output is the fatal message of the
`CheckIPRangeError` of the first failing call, the exit status is 1 and no stored
address is printed; if no call returned an error, the output is one "Keyword
found" line for each key of the result set, in the order `Range` visits them,
with exit status 0 and no fatal message. The same holds of lines 91-98 alone,
for any values returned by the workers and any keys. -/
theorem report_error_or_matches {ω : Type} (env : Env ω) (fuel : Nat) (schedule : List Nat)
    (returned : List (Option CheckIPRangeError)) (keys : List String) :
    ((∃ e, some e ∈ returned) →
        ∃ before e after, returned = before ++ some e :: after ∧ (∀ r ∈ before, r = none) ∧
          report returned keys = ([.fatal e.Error], .exit 1) ∧
          ∀ key, Event.found key ∉ (report returned keys).1) ∧
      ((∀ r ∈ returned, r = none) →
        report returned keys = (keys.map .found, .exit 0) ∧
          (report returned keys).1.length = keys.length ∧
          (report returned keys).1.map Event.text =
            keys.map (fun key => "Keyword found in SSL certificate for IP: " ++ key ++ "\n") ∧
          ∀ message, Event.fatal message ∉ (report returned keys).1) ∧
      ¬ ((∃ message, Event.fatal message ∈ (report returned keys).1) ∧
        (∃ key, Event.found key ∈ (report returned keys).1)) ∧
      ¬ ((∃ message, Event.fatal message ∈ (main env fuel schedule).events) ∧
        (∃ key, Event.found key ∈ (main env fuel schedule).events)) ∧
      (∀ (ipRanges : IPRange) (launch : Launch), env.keywordFlag ≠ "" →
        getIPRanges env.source = (some ipRanges, none) →
        launchAll (ipRanges.Prefixes.length : Int) env.threadsFlag fuel = some launch →
        (∃ code, (main env fuel schedule).ending = .exit code) →
          Pool.Sound env.checkIPRange ipRanges env.keywordFlag ⟨env.world, []⟩
            (finalPool env ipRanges launch.shards schedule) ∧
          ((∃ j err, (j, some err) ∈ (finalPool env ipRanges launch.shards schedule).calls) →
            ∃ before j err after p,
              (finalPool env ipRanges launch.shards schedule).calls =
                before ++ (j, some err) :: after ∧
              (∀ c ∈ before, c.2 = none) ∧ goIndex ipRanges.Prefixes j = some p ∧
              (main env fuel schedule).events =
                [.fatal ("error checking IP range " ++ p.IPPrefix ++ ": " ++ err)] ∧
              (main env fuel schedule).ending = .exit 1 ∧
              ∀ key, Event.found key ∉ (main env fuel schedule).events) ∧
          ((∀ c ∈ (finalPool env ipRanges launch.shards schedule).calls, c.2 = none) →
            (main env fuel schedule).events =
                (finalPool env ipRanges launch.shards schedule).state.ipAddresses.map .found ∧
              (main env fuel schedule).events.map Event.text =
                (finalPool env ipRanges launch.shards schedule).state.ipAddresses.map
                  (fun key => "Keyword found in SSL certificate for IP: " ++ key ++ "\n") ∧
              (main env fuel schedule).ending = .exit 0 ∧
              ∀ message, Event.fatal message ∉ (main env fuel schedule).events)) := by
  refine ⟨?_, ?_, report_not_both returned keys, main_not_both env fuel schedule, ?_⟩
  · rintro ⟨e0, he0⟩
    cases hw : egWait returned with
    | none => exact absurd ((egWait_eq_none returned).mp hw _ he0) (by simp)
    | some e =>
      obtain ⟨before, after, hsplit, hnone⟩ := egWait_eq_some returned e hw
      refine ⟨before, e, after, hsplit, hnone, ?_, ?_⟩
      · simp [report, hw]
      · simp [report, hw]
  · intro hall
    have hw := (egWait_eq_none returned).mpr hall
    simp [report, hw, Event.text, Function.comp_def]
  · intro ipRanges launch hkey hsrc hlaunch hend
    have hsound : Pool.Sound env.checkIPRange ipRanges env.keywordFlag ⟨env.world, []⟩
        (finalPool env ipRanges launch.shards schedule) :=
      Pool.sound_run env.checkIPRange ipRanges env.keywordFlag ⟨env.world, []⟩ schedule _
        (Pool.sound_start env.checkIPRange ipRanges env.keywordFlag launch.shards
          ⟨env.world, []⟩)
    obtain ⟨hev, hen⟩ := main_reports env fuel schedule ipRanges launch hkey hsrc hlaunch hend
    have hwait : egWait (finalPool env ipRanges launch.shards schedule).returned =
        (errorsOf ipRanges (finalPool env ipRanges launch.shards schedule).calls).head? := by
      rw [egWait_eq_head, hsound.errors]
    refine ⟨hsound, ?_, ?_⟩
    · intro hfail
      obtain ⟨before, j, err, after, p, hsplit, hnone, hp, hhead⟩ :=
        errorsOf_first ipRanges _ hsound.valid hfail
      rw [hhead] at hwait
      refine ⟨before, j, err, after, p, hsplit, hnone, hp, ?_, ?_, ?_⟩
      · rw [hev]
        simp [report, hwait, CheckIPRangeError.Error]
      · rw [hen]
        simp [report, hwait]
      · rw [hev]
        simp [report, hwait]
    · intro hall
      rw [errorsOf_all_none ipRanges _ hall] at hwait
      rw [hev, hen]
      simp [report, hwait, Event.text, Function.comp_def]

/-- Witness of `report_error_or_matches`: four ranges, the third of which
fails, and three threads; the first worker checks a range, then the second
worker fails, then the first worker checks its other range and returns. -/
theorem report_error_or_matches_witness :
    ∃ before j err after p,
      (finalPool (sampleEnv ["a", "b", "bad", "d"] 3)
          ⟨[⟨"a"⟩, ⟨"b"⟩, ⟨"bad"⟩, ⟨"d"⟩]⟩ [⟨0, 2⟩, ⟨2, 4⟩] [0, 1, 0]).calls =
        before ++ (j, some err) :: after ∧
      (∀ c ∈ before, c.2 = none) ∧
      goIndex (IPRange.mk [⟨"a"⟩, ⟨"b"⟩, ⟨"bad"⟩, ⟨"d"⟩]).Prefixes j = some p ∧
      (main (sampleEnv ["a", "b", "bad", "d"] 3) 4 [0, 1, 0]).events =
        [.fatal ("error checking IP range " ++ p.IPPrefix ++ ": " ++ err)] ∧
      (main (sampleEnv ["a", "b", "bad", "d"] 3) 4 [0, 1, 0]).ending = .exit 1 ∧
      ∀ key, Event.found key ∉ (main (sampleEnv ["a", "b", "bad", "d"] 3) 4 [0, 1, 0]).events :=
  ((report_error_or_matches (sampleEnv ["a", "b", "bad", "d"] 3) 4 [0, 1, 0] [] []).2.2.2.2
    ⟨[⟨"a"⟩, ⟨"b"⟩, ⟨"bad"⟩, ⟨"d"⟩]⟩ ⟨[⟨0, 2⟩, ⟨2, 4⟩], true⟩ (by decide) (by decide) (by decide)
    ⟨1, by decide⟩).2.1 ⟨2, "refused", by decide⟩

/-- Witness of `source_failure_is_fatal`: `http.Get` fails with "timeout". -/
theorem source_failure_is_fatal_witness :
    (main failingEnv 4 [0, 1]).launched = [] ∧ (main failingEnv 4 [0, 1]).checked = [] ∧
      (main failingEnv 4 [0, 1]).ending = .exit 1 ∧
      (failingEnv.keywordFlag ≠ "" →
        (main failingEnv 4 [0, 1]).events =
          [.fatal ("Error fetching IP ranges: " ++ ("error fetching IP ranges: " ++ "timeout"))]) :=
  (source_failure_is_fatal failingEnv 4 [0, 1]).2.2.2
    ("error fetching IP ranges: " ++ "timeout") rfl

/-! ## No index out of range when nothing overflows -/

theorem worker_returns {ω : Type} (check : CheckFn ω) (ipRanges : IPRange) (keyword : String)
    (sh : Shard) (fuel : Nat) (s : Scan ω) (h0 : 0 ≤ sh.start)
    (hN : sh.end_ ≤ (ipRanges.Prefixes.length : Int)) (hmax : sh.end_ ≤ intMax)
    (hfuel : sh.size ≤ fuel) :
    ∃ err, (worker check ipRanges keyword sh fuel s).result = .returned err := by
  unfold worker
  rcases workerLoop_spec check ipRanges keyword sh.end_ hN hmax fuel sh.start s h0 hfuel with
    hok | ⟨k, p, err, _, _, _, _, _, _, hres⟩
  · exact ⟨none, hok.1⟩
  · exact ⟨_, hres⟩

theorem Pool.step_inBounds {ω : Type} (check : CheckFn ω) (ipRanges : IPRange)
    (keyword : String) (pool : Pool ω) (w : Nat)
    (h : ∀ t ∈ pool.tasks, t.result ≠ some .indexOutOfRange ∧ 0 ≤ t.shard.start ∧
      t.shard.end_ ≤ (ipRanges.Prefixes.length : Int) ∧ t.shard.end_ ≤ intMax) :
    ∀ t ∈ (Pool.step check ipRanges keyword pool w).tasks,
      t.result ≠ some .indexOutOfRange ∧ 0 ≤ t.shard.start ∧
        t.shard.end_ ≤ (ipRanges.Prefixes.length : Int) ∧ t.shard.end_ ≤ intMax := by
  have hset : ∀ t2 : Task, (t2.result ≠ some .indexOutOfRange ∧ 0 ≤ t2.shard.start ∧
      t2.shard.end_ ≤ (ipRanges.Prefixes.length : Int) ∧ t2.shard.end_ ≤ intMax) →
      ∀ t ∈ pool.tasks.set w t2, t.result ≠ some .indexOutOfRange ∧ 0 ≤ t.shard.start ∧
        t.shard.end_ ≤ (ipRanges.Prefixes.length : Int) ∧ t.shard.end_ ≤ intMax := by
    intro t2 h2 t ht
    rcases List.mem_or_eq_of_mem_set ht with h1 | h1
    · exact h t h1
    · rw [h1]
      exact h2
  unfold Pool.step
  split
  · exact h
  · exact h
  · rename_i sh hget
    have hmem : (⟨sh, none⟩ : Task) ∈ pool.tasks := List.get?_mem hget
    obtain ⟨_, h0, hN, hmax⟩ := h _ hmem
    simp only at h0 hN hmax
    by_cases hlt : sh.start < sh.end_
    · obtain ⟨p, hp⟩ := goIndex_isSome ipRanges.Prefixes sh.start h0 (by omega)
      have hadd : goAdd sh.start 1 = sh.start + 1 := by
        unfold goAdd
        exact wrapInt_of_inRange _ (by unfold intMin; omega) (by unfold intMax at *; omega)
      cases hc : check pool.state p.IPPrefix keyword with
      | mk s1 r =>
        cases r with
        | some err =>
          rw [worker_one_error check ipRanges keyword sh pool.state s1 p err hlt hp hc]
          exact hset _ ⟨by simp, h0, hN, hmax⟩
        | none =>
          rw [worker_one_ok check ipRanges keyword sh pool.state s1 p hlt hp hc]
          split
          · exact hset _ ⟨by simp, by simp only [hadd]; omega, hN, hmax⟩
          · exact hset _ ⟨by simp, h0, hN, hmax⟩
    · rw [worker_one_done check ipRanges keyword sh pool.state hlt]
      exact hset _ ⟨by simp, h0, hN, hmax⟩

theorem runSchedule_inBounds {ω : Type} (check : CheckFn ω) (ipRanges : IPRange)
    (keyword : String) (schedule : List Nat) :
    ∀ pool : Pool ω,
      (∀ t ∈ pool.tasks, t.result ≠ some .indexOutOfRange ∧ 0 ≤ t.shard.start ∧
        t.shard.end_ ≤ (ipRanges.Prefixes.length : Int) ∧ t.shard.end_ ≤ intMax) →
      ∀ t ∈ (runSchedule check ipRanges keyword schedule pool).tasks,
        t.result ≠ some .indexOutOfRange := by
  induction schedule with
  | nil => exact fun pool h t ht => (h t ht).1
  | cons w rest ih =>
    intro pool h
    exact ih _ (Pool.step_inBounds check ipRanges keyword pool w h)

/-- With a keyword, a range source that delivers `N` ranges and a thread count
`W ≥ 1` such that `N + W - 1` fits a Go `int`, no goroutine ever reads
`Prefixes[j]` out of range, however the goroutines are interleaved: the program
does not end by a run-time failure. -/
theorem main_no_failure_inRange {ω : Type} (env : Env ω) (ipRanges : IPRange) (fuel : Nat)
    (schedule : List Nat) (hkey : env.keywordFlag ≠ "")
    (hsrc : getIPRanges env.source = (some ipRanges, none)) (hW : 1 ≤ env.threadsFlag)
    (hov : (ipRanges.Prefixes.length : Int) + env.threadsFlag ≤ 2 ^ 63)
    (hfuel : ipRanges.Prefixes.length ≤ fuel) :
    (main env fuel schedule).ending ≠ .failure := by
  obtain ⟨W, hWeq⟩ : ∃ W : Nat, env.threadsFlag = (W : Int) :=
    ⟨env.threadsFlag.toNat, by omega⟩
  have hW1 : 1 ≤ W := by omega
  have hovN : ipRanges.Prefixes.length + W ≤ 2 ^ 63 := by
    rw [hWeq] at hov
    exact_mod_cast hov
  have hK := Nat.le_trans (shardCount_le_self ipRanges.Prefixes.length W hW1) hfuel
  have hl := launchAll_closed ipRanges.Prefixes.length W fuel hW1 hovN hK
  have hbounds : ∀ t ∈ (Pool.start ((List.range (ceilDiv ipRanges.Prefixes.length
      (ceilDiv ipRanges.Prefixes.length W))).map
        (shardAt ipRanges.Prefixes.length (ceilDiv ipRanges.Prefixes.length W)))
        (⟨env.world, []⟩ : Scan ω)).tasks,
      t.result ≠ some .indexOutOfRange ∧ 0 ≤ t.shard.start ∧
        t.shard.end_ ≤ (ipRanges.Prefixes.length : Int) ∧ t.shard.end_ ≤ intMax := by
    intro t ht
    simp only [Pool.start, List.map_map, List.mem_map, List.mem_range, Function.comp_apply]
      at ht
    obtain ⟨m, hm, rfl⟩ := ht
    have hN : 1 ≤ ipRanges.Prefixes.length := by
      have := shardCount_le_self ipRanges.Prefixes.length W hW1
      omega
    have hr := ceilDiv_pos ipRanges.Prefixes.length W hN hW1
    have hb := shardAt_bounds ipRanges.Prefixes.length _ m hr hm
    refine ⟨by simp, hb.1, hb.2.2, ?_⟩
    have hb2 := hb.2.2
    unfold intMax
    simp only
    omega
  have hok := runSchedule_inBounds env.checkIPRange ipRanges env.keywordFlag schedule _ hbounds
  have hany : (finalPool env ipRanges ((List.range (ceilDiv ipRanges.Prefixes.length
      (ceilDiv ipRanges.Prefixes.length W))).map
        (shardAt ipRanges.Prefixes.length (ceilDiv ipRanges.Prefixes.length W)))
      schedule).tasks.any (fun t => t.result == some .indexOutOfRange) = false := by
    rw [Bool.eq_false_iff]
    intro hc
    obtain ⟨t, ht, hres⟩ := List.any_eq_true.mp hc
    exact hok t ht (by simpa using hres)
  unfold main
  rw [if_neg hkey, hsrc]
  simp only [hWeq, hl, hany, Bool.false_eq_true, if_false]
  split
  · simp
  · unfold report
    split <;> simp

/-! ## Sample runs of `main` -/

/-- Four ranges and three threads, the two workers taking turns: every range is
checked, in the order of the schedule, and there is one line for each stored
address. -/
theorem main_sample_matches :
    main (sampleEnv ["a", "b", "c", "d"] 3) 4 [0, 1, 1, 0] =
      ⟨[.found "a", .found "c", .found "d", .found "b"], .exit 0, [⟨0, 2⟩, ⟨2, 4⟩],
        ["a", "c", "d", "b"]⟩ := by
  decide

/-- A failing range in the second shard, checked after the first worker has
stored an address: the only output is the fatal message, and the stored
addresses are not printed. -/
theorem main_sample_error :
    main (sampleEnv ["a", "b", "bad", "d"] 3) 4 [0, 1, 0] =
      ⟨[.fatal "error checking IP range bad: refused"], .exit 1, [⟨0, 2⟩, ⟨2, 4⟩],
        ["a", "bad", "b"]⟩ := by
  decide

/-- Two failing ranges in different shards: the message is that of the call
that failed first under the schedule, here the one of the second worker, not
that of the lower index. -/
theorem main_sample_first_error :
    main { sampleEnv ["a", "b", "c", "d"] 3 with checkIPRange := refusingCheck } 4 [1, 0] =
        ⟨[.fatal "error checking IP range c: refused"], .exit 1, [⟨0, 2⟩, ⟨2, 4⟩],
          ["c", "a"]⟩ ∧
      main { sampleEnv ["a", "b", "c", "d"] 3 with checkIPRange := refusingCheck } 4 [0, 1] =
        ⟨[.fatal "error checking IP range a: refused"], .exit 1, [⟨0, 2⟩, ⟨2, 4⟩],
          ["a", "c"]⟩ := by
  decide

/-- A schedule that ends before the workers do: the program is still running. -/
theorem main_sample_running :
    main (sampleEnv ["a", "b", "c", "d"] 3) 4 [0, 1] =
      ⟨[], .running, [⟨0, 2⟩, ⟨2, 4⟩], ["a", "c"]⟩ := by
  decide

/-- Two ranges and the largest thread count: after four iterations the launch
loop is still running, four empty shards have been launched and no range has
been checked. -/
theorem main_sample_overflow :
    main (sampleEnv ["a", "b"] 9223372036854775807) 4 [0, 1, 2, 3] =
      ⟨[], .running, [⟨0, -1⟩, ⟨-1, -2⟩, ⟨-2, -3⟩, ⟨-3, -4⟩], []⟩ := by
  decide

end AwsScrape
